import Mathlib

/-!
Julia set creator: escape-time evaluation, row partitioning, colour mapping, BMP encoding

Shallow embedding of `JuliaSetCreator.cpp`.

Conventions of the embedding:
* `double` values are exact rationals (`ℚ`): every arithmetic operation is the exact one,
  so rounding, overflow to infinity and NaN are outside the model;
* the library functions `std::pow`, `std::log10` and `std::abs`, whose values are not
  rational in general, are arguments (`pow`, `log10`, `cabs`) of the functions that call
  them; the escape loop is given twice, `escapeLoop` with the comparison on the exact
  modulus (`absLe`) and `escapeLoopAbs` with the `double` that `std::abs` returns;
* `std::complex<double>` is `Cplx`, a pair of rationals with the usual product and sum;
* `int` and `size_t` values that are non-negative in every execution considered are `Nat`;
* the global constants the statements range over (`Width`, `Height`, `precision`,
  `tolerance`, `c`, the window) are explicit arguments; `sourceParams` holds the values
  written in the source;
* the shared array `image` is a function from row and column to the stored value and
  every worker is a function from grids to grids.
-/

/-! ## Complex arithmetic -/

/-- Embedding of `std::complex<double>`: real and imaginary part. -/
structure Cplx where
  re : ℚ
  im : ℚ
deriving DecidableEq, Repr

/-- Product of two complex numbers, `operator*`. -/
def Cplx.mul (a b : Cplx) : Cplx :=
  ⟨a.re * b.re - a.im * b.im, a.re * b.im + a.im * b.re⟩

/-- Sum of two complex numbers, `operator+`. -/
def Cplx.add (a b : Cplx) : Cplx :=
  ⟨a.re + b.re, a.im + b.im⟩

/-- The test `abs(z) <= t` on the exact modulus, without the rounding of `std::abs`
(`loopCondAbs` has the test on the rounded value). The modulus `sqrt(re² + im²)` is
irrational in general, so the comparison is decided on squares: for `t ≥ 0` it is
`re² + im² ≤ t²`, for `t < 0` it is false (`absLe_iff` states the equivalence with the real
modulus). -/
def absLe (z : Cplx) (t : ℚ) : Bool :=
  decide (0 ≤ t ∧ z.re * z.re + z.im * z.im ≤ t * t)

/-! ## The escape loop of `computeJulia` (source lines 195-202) -/

/-- One execution of the loop body on `z`: `z = (z * z) + c`. -/
def juliaStep (c z : Cplx) : Cplx :=
  (z.mul z).add c

/-- Loop condition `abs(z) <= tolerance && iterations < precision`, the modulus exact. -/
def loopCond (tolerance : Int) (precision : Nat) (z : Cplx) (iterations : Nat) : Bool :=
  absLe z (tolerance : ℚ) && decide (iterations < precision)

/-- The `while` loop, started in the state `(z, iterations)`; the value is the final
`iterations`. -/
def escapeLoop (c : Cplx) (tolerance : Int) (precision : Nat) (z : Cplx) (iterations : Nat) :
    Nat :=
  if loopCond tolerance precision z iterations = true then
    escapeLoop c tolerance precision (juliaStep c z) (iterations + 1)
  else
    iterations
termination_by precision - iterations
decreasing_by
  simp only [loopCond, Bool.and_eq_true, decide_eq_true_eq] at *
  omega

/-- Lines 195-202: `complex<double> z(x, y); int iterations = 0; while (...) {...}`. -/
def escapeCount (c : Cplx) (tolerance : Int) (precision : Nat) (z0 : Cplx) : Nat :=
  escapeLoop c tolerance precision z0 0

/-- The same loop run with a budget of body executions: `none` when the budget is used up
and the loop condition still holds. -/
def escapeLoopFuel (c : Cplx) (tolerance : Int) (precision : Nat) :
    Nat → Cplx → Nat → Option Nat
  | 0, z, iterations =>
    if loopCond tolerance precision z iterations = true then none else some iterations
  | fuel + 1, z, iterations =>
    if loopCond tolerance precision z iterations = true then
      escapeLoopFuel c tolerance precision fuel (juliaStep c z) (iterations + 1)
    else
      some iterations

/-- The orbit `z_0 = z0`, `z_{k+1} = z_k² + c`. -/
def orbit (c z0 : Cplx) : Nat → Cplx
  | 0 => z0
  | k + 1 => juliaStep c (orbit c z0 k)

/-! ### The loop with the modulus as `std::abs` returns it -/

/-- Loop condition `abs(z) <= tolerance && iterations < precision` with the library function
`std::abs` as the argument `cabs`: `cabs z` is the `double` the call `abs(z)` returns, the
modulus `sqrt(re² + im²)` rounded to a `double`. The comparison of the two doubles and the
test on the counter are exact. -/
def loopCondAbs (cabs : Cplx → ℚ) (tolerance : Int) (precision : Nat) (z : Cplx)
    (iterations : Nat) : Bool :=
  decide (cabs z ≤ (tolerance : ℚ)) && decide (iterations < precision)

/-- The `while` loop of lines 199-202 with `std::abs` as the argument `cabs`, started in the
state `(z, iterations)`; the value is the final `iterations`. -/
def escapeLoopAbs (cabs : Cplx → ℚ) (c : Cplx) (tolerance : Int) (precision : Nat) (z : Cplx)
    (iterations : Nat) : Nat :=
  if loopCondAbs cabs tolerance precision z iterations = true then
    escapeLoopAbs cabs c tolerance precision (juliaStep c z) (iterations + 1)
  else
    iterations
termination_by precision - iterations
decreasing_by
  simp only [loopCondAbs, Bool.and_eq_true, decide_eq_true_eq] at *
  omega

/-- Lines 195-202 with `std::abs` as the argument `cabs`: the loop started at `z0` with
`iterations = 0`. -/
def escapeCountAbs (cabs : Cplx → ℚ) (c : Cplx) (tolerance : Int) (precision : Nat)
    (z0 : Cplx) : Nat :=
  escapeLoopAbs cabs c tolerance precision z0 0

/-! ## Colour mapping (source lines 111-181) -/

/-- Colour constant of the source: `const double exponent = 0.9`. -/
def exponent : ℚ := 9 / 10

/-- Colour constant of the source: `const double constant = 0.5`. -/
def constant : ℚ := 1 / 2

/-- Colour constant of the source: `const double scale = 0.1`. -/
def scale : ℚ := 1 / 10

/-- Conversion `static_cast<int>(q)`: truncation toward zero. -/
def truncToInt (q : ℚ) : Int :=
  if 0 ≤ q then ⌊q⌋ else ⌈q⌉

/-- Library function `std::fmod(a, b)`: `a - n * b` with `n` the quotient `a / b` truncated
toward zero. -/
def fmod (a b : ℚ) : ℚ :=
  a - (truncToInt (a / b) : ℚ) * b

/-- Embedding of `struct RGB`: three `int` channels. -/
structure RGB where
  r : Int
  g : Int
  b : Int
deriving DecidableEq, Repr

/-- Embedding of `hsvToRgb(hue, saturation, value)`, lines 118-163. -/
def hsvToRgb (hue saturation value : ℚ) : RGB :=
  let c := value * saturation
  let x := c * (1 - |fmod (hue / 60) 2 - 1|)
  let m := value - c
  let rgb : ℚ × ℚ × ℚ :=
    if 0 ≤ hue ∧ hue < 60 then (c, x, 0)
    else if 60 ≤ hue ∧ hue < 120 then (x, c, 0)
    else if 120 ≤ hue ∧ hue < 180 then (0, c, x)
    else if 180 ≤ hue ∧ hue < 240 then (0, x, c)
    else if 240 ≤ hue ∧ hue < 300 then (x, 0, c)
    else (c, 0, x)
  { r := truncToInt ((rgb.1 + m) * 255)
    g := truncToInt ((rgb.2.1 + m) * 255)
    b := truncToInt ((rgb.2.2 + m) * 255) }

/-- Embedding of `powerColor(distance)`, lines 174-181. The library function `std::pow` is
not rational-valued, so it is the argument `pow`; the statements about `powerColor` assume
of it only that `pow d exponent` lies in `[0, 1]` for `d` in `[0, 1)`. -/
def powerColor (pow : ℚ → ℚ → ℚ) (distance : ℚ) : RGB :=
  let color := pow distance exponent
  let normalizedDistance := distance / scale
  let hue := fmod (constant + normalizedDistance) 1
  hsvToRgb (hue * 360) (1 - 6 / 10 * color) (9 / 10)

/-- Embedding of `logColor(distance, base, constant, scale)`, lines 166-172. The library
function `std::log10` is not rational-valued, so it is the argument `log10`. -/
def logColor (log10 : ℚ → ℚ) (distance base constant scale : ℚ) : RGB :=
  let color := -1 * log10 base / log10 distance
  hsvToRgb (constant + scale * color) (8 / 10) (9 / 10)

/-! ## Row bands and the worker `computeJulia` (source lines 185-215) -/

/-- The render parameters, global constants in the source. -/
structure Params where
  Width : Nat
  Height : Nat
  minX : ℚ
  maxY : ℚ
  xRange : ℚ
  yRange : ℚ
  precision : Nat
  tolerance : Int
  c : Cplx

/-- The values the source gives the render parameters: `Width = 3000`,
`Height = Width * 3 / 4`, centre `(0, 0)`, `xRange = 3`, `yRange = xRange / (4 / 3)`,
`precision = 200`, `tolerance = 2`, `c = (-0.79, 0.15)`. -/
def sourceParams : Params where
  Width := 3000
  Height := 3000 * 3 / 4
  minX := 0 - 3 / 2
  maxY := 0 + (3 / (4 / 3)) / 2
  xRange := 3
  yRange := 3 / (4 / 3)
  precision := 200
  tolerance := 2
  c := ⟨-79 / 100, 15 / 100⟩

/-- Line 187: `size_t startRow = (Height / threads) * idx`. For `idx < threads` the product
is at most `Height`, so the `size_t` arithmetic does not wrap. -/
def startRow (Height threads idx : Nat) : Nat :=
  (Height / threads) * idx

/-- Line 188: `size_t endRow = (Height / threads) * (idx + 1)`. -/
def endRow (Height threads idx : Nat) : Nat :=
  (Height / threads) * (idx + 1)

/-- Row `row` is visited by the loop `for (row = startRow; row < endRow; ++row)` of worker
`idx`: it lies in band `idx`. -/
def inBand (Height threads idx row : Nat) : Prop :=
  startRow Height threads idx ≤ row ∧ row < endRow Height threads idx

instance (Height threads idx row : Nat) : Decidable (inBand Height threads idx row) := by
  unfold inBand
  infer_instance

/-- The array `uint64_t image[Height][Width]` as a function of row and column. -/
abbrev Grid := Nat → Nat → Nat

/-- The grid of a fresh process: a global array is zero-initialised. -/
def zeroGrid : Grid := fun _ _ => 0

/-- The assignment `image[row][column] = v`. -/
def setCell (image : Grid) (row column v : Nat) : Grid :=
  fun r k => if r = row ∧ k = column then v else image r k

/-- The value stored at line 210: `(rgb.r << 16) | (rgb.g << 8) | (rgb.b)` computed on
`int`s and converted to `uint64_t`. -/
def packRGB (rgb : RGB) : Nat :=
  (Int.lor (Int.lor (rgb.r <<< (16 : Int)) (rgb.g <<< (8 : Int))) rgb.b % 2 ^ 64).toNat

/-- The point of the plane for the cell `(row, column)`, lines 192-195. -/
def pixelPoint (p : Params) (row column : Nat) : Cplx :=
  ⟨p.minX + (column : ℚ) * p.xRange / (p.Width : ℚ),
   p.maxY - (row : ℚ) * p.yRange / (p.Height : ℚ)⟩

/-- The escape count of the cell `(row, column)`: the value of `iterations` at line 204. -/
def cellIterations (p : Params) (row column : Nat) : Nat :=
  escapeCount p.c p.tolerance p.precision (pixelPoint p row column)

/-- Body of the inner loop of `computeJulia`, lines 192-212, for one cell. -/
def computeCell (p : Params) (pow : ℚ → ℚ → ℚ) (row column : Nat) (image : Grid) : Grid :=
  let iterations := cellIterations p row column
  if iterations < p.precision then
    let distance := (iterations : ℚ) / (p.precision : ℚ)
    let rgb := powerColor pow distance
    setCell image row column (packRGB rgb)
  else
    image

/-- The inner loop `for (column = 0; column < Width; ++column)` for one row. -/
def computeRow (p : Params) (pow : ℚ → ℚ → ℚ) (row : Nat) (image : Grid) : Grid :=
  (List.range p.Width).foldl (fun img column => computeCell p pow row column img) image

/-- Embedding of `computeJulia(idx, threads)`: the rows `startRow, ..., endRow - 1` in
increasing order. -/
def computeJulia (p : Params) (pow : ℚ → ℚ → ℚ) (idx threads : Nat) (image : Grid) : Grid :=
  (List.range' (startRow p.Height threads idx)
      (endRow p.Height threads idx - startRow p.Height threads idx)).foldl
    (fun img row => computeRow p pow row img) image

/-- The workers `0, ..., numThreads - 1` of `main` (lines 227-237), run one after the other
in the order of their launch. -/
def runWorkers (p : Params) (pow : ℚ → ℚ → ℚ) (numThreads : Nat) (image : Grid) : Grid :=
  (List.range numThreads).foldl (fun img idx => computeJulia p pow idx numThreads img) image

/-! ## The bitmap encoder `saveImage` (source lines 61-108) -/

/-- The initialiser of `uint8_t bmpHeader[54]`, lines 70-86; `'B'` is 66 and `'M'` is 77. -/
def bmpHeaderInit (Width Height : Nat) : List Nat :=
  [66, 77,
   0, 0, 0, 0,
   0, 0, 0, 0,
   54, 0, 0, 0,
   40, 0, 0, 0,
   Width &&& 0xff, (Width >>> 8) &&& 0xff, (Width >>> 16) &&& 0xff, (Width >>> 24) &&& 0xff,
   Height &&& 0xff, (Height >>> 8) &&& 0xff, (Height >>> 16) &&& 0xff,
     (Height >>> 24) &&& 0xff,
   1, 0,
   24, 0,
   0, 0, 0, 0,
   0, 0, 0, 0,
   0, 0, 0, 0,
   0, 0, 0, 0,
   0, 0, 0, 0,
   0, 0, 0, 0]

/-- Line 89: `uint32_t fileSize = sizeof(bmpHeader) + Width * Height * 3`, reduced modulo
`2 ^ 32` by the conversion to `uint32_t`. -/
def fileSize (Width Height : Nat) : Nat :=
  (54 + Width * Height * 3) % 2 ^ 32

/-- The header as written at line 95, after the four assignments of lines 90-93. -/
def bmpHeader (Width Height : Nat) : List Nat :=
  ((((bmpHeaderInit Width Height).set 2 (fileSize Width Height &&& 0xff)).set 3
    ((fileSize Width Height >>> 8) &&& 0xff)).set 4
    ((fileSize Width Height >>> 16) &&& 0xff)).set 5
    ((fileSize Width Height >>> 24) &&& 0xff)

/-- The three bytes `write(reinterpret_cast<const char*>(&image[y][x]), 3)` emits: the three
lowest-addressed bytes of the `uint64_t`, on a little-endian host its three low-order
bytes, lowest first. -/
def cellBytes (v : Nat) : List Nat :=
  [v % 256, v / 256 % 256, v / 65536 % 256]

/-- Number of padding bytes per row, line 103: `(4 - (Width * 3) % 4) % 4`. -/
def padding (Width : Nat) : Nat :=
  (4 - (Width * 3) % 4) % 4

/-- The bytes emitted by one pass of the outer loop of `saveImage` (lines 99-105): the
pixels of row `y`, then the padding. -/
def rowBytes (Width : Nat) (image : Grid) (y : Nat) : List Nat :=
  (List.range Width).flatMap (fun x => cellBytes (image y x)) ++
    (List.range (padding Width)).map (fun _ => 0)

/-- The byte stream `saveImage` writes: the header, then the rows `Height - 1, ..., 0`. -/
def saveImage (Width Height : Nat) (image : Grid) : List Nat :=
  bmpHeader Width Height ++ (List.range Height).reverse.flatMap (rowBytes Width image)

/-! ## The driver `main` (source lines 217-244) -/

/-- The lines `main` prints on standard output; the elapsed time in the last one is not
part of the model. -/
inductive Message where
  | generating : Message
  | threadCapacity : Nat → Message
  | launchedThread : Nat → Message
  | computingTook : Message
deriving DecidableEq, Repr

/-- What a run of `main` leaves behind: the value it returns, the lines it printed and the
bytes of the file `output.bmp` (`none` when no file is written). -/
structure RunResult where
  exitCode : Int
  messages : List Message
  outputFile : Option (List Nat)

/-- Embedding of `main`, with the value of `std::thread::hardware_concurrency()` as the
argument `numThreads`: the workers are launched and joined, then `saveImage` writes the
grid and `main` returns 0. No statement of `main` inspects its configuration and no path
ends anywhere but at `return 0`. -/
def JuliaSetCreator.main (p : Params) (pow : ℚ → ℚ → ℚ) (numThreads : Nat) : RunResult :=
  { exitCode := 0
    messages :=
      [Message.generating, Message.threadCapacity numThreads] ++
        (List.range numThreads).map Message.launchedThread ++ [Message.computingTook]
    outputFile := some (saveImage p.Width p.Height (runWorkers p pow numThreads zeroGrid)) }

/-! ## Notions used in the statements -/

/-- The rationals a `double` can hold, the range of the exponent aside: `m * 2^e` with an
integer `m` of fewer than 54 bits. -/
def isDouble (q : ℚ) : Prop :=
  ∃ m e : Int, |m| < 2 ^ 53 ∧ q = (m : ℚ) * (2 : ℚ) ^ e

/-- Little-endian encoding of `n` in four bytes. -/
def le32 (n : Nat) : List Nat :=
  [n % 256, n / 256 % 256, n / 65536 % 256, n / 16777216 % 256]

/-- The number a list of bytes denotes, least significant byte first. -/
def leValue : List Nat → Nat
  | [] => 0
  | b :: bs => b + 256 * leValue bs

/-- The value a worker stores in the cell `(row, column)` when its point escapes: the
packed colour of `iterations / precision`, lines 206-210. -/
def cellColour (p : Params) (pow : ℚ → ℚ → ℚ) (row column : Nat) : Nat :=
  packRGB (powerColor pow ((cellIterations p row column : ℚ) / (p.precision : ℚ)))

/-- Length of one emitted row: `3 * Width` pixel bytes and the padding. -/
def rowStride (Width : Nat) : Nat :=
  3 * Width + padding Width

/-- A run that rejects its configuration: it does not return success and writes no
output file. -/
def rejectsConfiguration (res : RunResult) : Prop :=
  res.exitCode ≠ 0 ∧ res.outputFile = none

/-! ## Helper lemmas: modulus and escape loop -/

theorem absLe_iff (z : Cplx) (t : ℚ) :
    absLe z t = true ↔ Complex.abs ⟨(z.re : ℝ), (z.im : ℝ)⟩ ≤ (t : ℝ) := by
  have key : (z.re * z.re + z.im * z.im ≤ t * t) ↔
      ((z.re : ℝ) * z.re + (z.im : ℝ) * z.im ≤ (t : ℝ) ^ 2) := by
    rw [pow_two]
    exact_mod_cast Iff.rfl
  simp only [absLe, decide_eq_true_eq]
  rw [Complex.abs_apply, Complex.normSq_mk, Real.sqrt_le_iff, key]
  simp

theorem orbit_succ_shift (c z0 : Cplx) (k : Nat) :
    orbit c z0 (k + 1) = orbit c (juliaStep c z0) k := by
  induction k with
  | zero => rfl
  | succ k ih => simp only [orbit] at ih ⊢; rw [ih]

theorem escapeLoop_unfold (c : Cplx) (tolerance : Int) (precision : Nat) (z : Cplx)
    (iterations : Nat) :
    escapeLoop c tolerance precision z iterations =
      if loopCond tolerance precision z iterations = true then
        escapeLoop c tolerance precision (juliaStep c z) (iterations + 1)
      else iterations := by
  rw [escapeLoop]

/-- Invariant of the loop from any state with `iterations ≤ precision`. -/
theorem escapeLoop_spec (c : Cplx) (tolerance : Int) (precision : Nat) :
    ∀ (m : Nat) (z : Cplx) (iterations : Nat), precision - iterations = m →
      iterations ≤ precision →
      iterations ≤ escapeLoop c tolerance precision z iterations ∧
      escapeLoop c tolerance precision z iterations ≤ precision ∧
      (∀ k, iterations + k < escapeLoop c tolerance precision z iterations →
        absLe (orbit c z k) (tolerance : ℚ) = true) ∧
      (escapeLoop c tolerance precision z iterations = precision ∨
        absLe (orbit c z (escapeLoop c tolerance precision z iterations - iterations))
          (tolerance : ℚ) = false) ∧
      escapeLoopFuel c tolerance precision m z iterations =
        some (escapeLoop c tolerance precision z iterations) := by
  intro m
  induction m with
  | zero =>
    intro z iterations hm hle
    have hcond : loopCond tolerance precision z iterations = false := by
      simp only [loopCond, Bool.and_eq_false_iff, decide_eq_false_iff_not]
      right; omega
    have hE : escapeLoop c tolerance precision z iterations = iterations := by
      rw [escapeLoop_unfold, hcond]; rfl
    rw [hE]
    refine ⟨le_refl _, hle, ?_, Or.inl (by omega), by simp [escapeLoopFuel, hcond]⟩
    intro k hk; omega
  | succ m ih =>
    intro z iterations hm hle
    by_cases hcond : loopCond tolerance precision z iterations = true
    · have hE : escapeLoop c tolerance precision z iterations =
          escapeLoop c tolerance precision (juliaStep c z) (iterations + 1) := by
        rw [escapeLoop_unfold, if_pos hcond]
      rw [hE]
      simp only [hcond, if_true, escapeLoopFuel]
      have hlt : iterations < precision := by omega
      obtain ⟨h1, h2, h3, h4, h5⟩ := ih (juliaStep c z) (iterations + 1) (by omega) hlt
      have habs : absLe z (tolerance : ℚ) = true := by
        simp only [loopCond, Bool.and_eq_true] at hcond
        exact hcond.1
      refine ⟨by omega, h2, ?_, ?_, h5⟩
      · intro k hk
        cases k with
        | zero => exact habs
        | succ k =>
          rw [orbit_succ_shift]
          exact h3 k (by omega)
      · rcases h4 with h4 | h4
        · exact Or.inl h4
        · right
          have hsub : escapeLoop c tolerance precision (juliaStep c z) (iterations + 1)
              - iterations =
              (escapeLoop c tolerance precision (juliaStep c z) (iterations + 1)
                - (iterations + 1)) + 1 := by omega
          rw [hsub, orbit_succ_shift]
          exact h4
    · have hfalse : loopCond tolerance precision z iterations = false := by
        simpa using hcond
      have hE : escapeLoop c tolerance precision z iterations = iterations := by
        rw [escapeLoop_unfold, if_neg hcond]
      rw [hE]
      refine ⟨le_refl _, hle, ?_, ?_, by simp [escapeLoopFuel, hfalse]⟩
      · intro k hk; omega
      · simp only [loopCond, Bool.and_eq_false_iff, decide_eq_false_iff_not] at hfalse
        rcases hfalse with h | h
        · right; simpa [orbit] using h
        · left; omega

theorem escapeLoopAbs_unfold (cabs : Cplx → ℚ) (c : Cplx) (tolerance : Int) (precision : Nat)
    (z : Cplx) (iterations : Nat) :
    escapeLoopAbs cabs c tolerance precision z iterations =
      if loopCondAbs cabs tolerance precision z iterations = true then
        escapeLoopAbs cabs c tolerance precision (juliaStep c z) (iterations + 1)
      else iterations := by
  rw [escapeLoopAbs]

/-- Invariant of the loop with `std::abs` as `cabs`, from any state with
`iterations ≤ precision`. -/
theorem escapeLoopAbs_spec (cabs : Cplx → ℚ) (c : Cplx) (tolerance : Int) (precision : Nat) :
    ∀ (m : Nat) (z : Cplx) (iterations : Nat), precision - iterations = m →
      iterations ≤ precision →
      iterations ≤ escapeLoopAbs cabs c tolerance precision z iterations ∧
      escapeLoopAbs cabs c tolerance precision z iterations ≤ precision ∧
      (∀ k, iterations + k < escapeLoopAbs cabs c tolerance precision z iterations →
        cabs (orbit c z k) ≤ (tolerance : ℚ)) ∧
      (escapeLoopAbs cabs c tolerance precision z iterations = precision ∨
        (tolerance : ℚ) <
          cabs (orbit c z (escapeLoopAbs cabs c tolerance precision z iterations
            - iterations))) := by
  intro m
  induction m with
  | zero =>
    intro z iterations hm hle
    have hcond : loopCondAbs cabs tolerance precision z iterations = false := by
      simp only [loopCondAbs, Bool.and_eq_false_iff, decide_eq_false_iff_not]
      right; omega
    have hE : escapeLoopAbs cabs c tolerance precision z iterations = iterations := by
      rw [escapeLoopAbs_unfold, hcond]; rfl
    rw [hE]
    refine ⟨le_refl _, hle, ?_, Or.inl (by omega)⟩
    intro k hk; omega
  | succ m ih =>
    intro z iterations hm hle
    by_cases hcond : loopCondAbs cabs tolerance precision z iterations = true
    · have hE : escapeLoopAbs cabs c tolerance precision z iterations =
          escapeLoopAbs cabs c tolerance precision (juliaStep c z) (iterations + 1) := by
        rw [escapeLoopAbs_unfold, if_pos hcond]
      rw [hE]
      have hlt : iterations < precision := by omega
      obtain ⟨h1, h2, h3, h4⟩ := ih (juliaStep c z) (iterations + 1) (by omega) hlt
      have habs : cabs z ≤ (tolerance : ℚ) := by
        simp only [loopCondAbs, Bool.and_eq_true, decide_eq_true_eq] at hcond
        exact hcond.1
      refine ⟨by omega, h2, ?_, ?_⟩
      · intro k hk
        cases k with
        | zero => exact habs
        | succ k =>
          rw [orbit_succ_shift]
          exact h3 k (by omega)
      · rcases h4 with h4 | h4
        · exact Or.inl h4
        · right
          have hsub : escapeLoopAbs cabs c tolerance precision (juliaStep c z)
              (iterations + 1) - iterations =
              (escapeLoopAbs cabs c tolerance precision (juliaStep c z) (iterations + 1)
                - (iterations + 1)) + 1 := by omega
          rw [hsub, orbit_succ_shift]
          exact h4
    · have hfalse : loopCondAbs cabs tolerance precision z iterations = false := by
        simpa using hcond
      have hE : escapeLoopAbs cabs c tolerance precision z iterations = iterations := by
        rw [escapeLoopAbs_unfold, if_neg hcond]
      rw [hE]
      refine ⟨le_refl _, hle, ?_, ?_⟩
      · intro k hk; omega
      · simp only [loopCondAbs, Bool.and_eq_false_iff, decide_eq_false_iff_not] at hfalse
        rcases hfalse with h | h
        · right
          rw [Nat.sub_self]
          exact lt_of_not_le h
        · left; omega

/-- The loop with the exact comparison is the loop with `std::abs` as `cabs` whenever the
test on `cabs` decides the comparison with the real modulus. -/
theorem escapeLoopAbs_eq_escapeLoop (cabs : Cplx → ℚ) (c : Cplx) (tolerance : Int)
    (precision : Nat)
    (hexact : ∀ z, cabs z ≤ (tolerance : ℚ) ↔ absLe z (tolerance : ℚ) = true) :
    ∀ (m : Nat) (z : Cplx) (iterations : Nat), precision - iterations = m →
      escapeLoopAbs cabs c tolerance precision z iterations =
        escapeLoop c tolerance precision z iterations := by
  have hcond : ∀ z iterations, loopCondAbs cabs tolerance precision z iterations =
      loopCond tolerance precision z iterations := by
    intro z iterations
    unfold loopCondAbs loopCond
    congr 1
    rw [Bool.eq_iff_iff, decide_eq_true_eq]
    exact hexact z
  intro m
  induction m with
  | zero =>
    intro z iterations hm
    rw [escapeLoopAbs_unfold, escapeLoop_unfold, hcond]
    have hfalse : loopCond tolerance precision z iterations = false := by
      simp only [loopCond, Bool.and_eq_false_iff, decide_eq_false_iff_not]
      right; omega
    rw [hfalse]
    rfl
  | succ m ih =>
    intro z iterations hm
    rw [escapeLoopAbs_unfold, escapeLoop_unfold, hcond, ih (juliaStep c z) (iterations + 1)
      (by omega)]

/-- No `double` lies strictly between 2 and `2 + 2^-51`. -/
theorem isDouble_gap_above_two (d : ℚ) (hd : isDouble d) (h2 : 2 < d) :
    2 + 1 / 2 ^ 51 ≤ d := by
  obtain ⟨m, e, hm, rfl⟩ := hd
  have hpow : (0 : ℚ) < (2 : ℚ) ^ e := zpow_pos (by norm_num) e
  have hmlt : m < 2 ^ 53 := lt_of_le_of_lt (le_abs_self m) hm
  have hmpos : 0 < m := by
    by_contra hneg
    have hm0 : (m : ℚ) ≤ 0 := by exact_mod_cast not_lt.1 hneg
    have : (m : ℚ) * (2 : ℚ) ^ e ≤ 0 := mul_nonpos_of_nonpos_of_nonneg hm0 hpow.le
    linarith
  have hmq : (0 : ℚ) < (m : ℚ) := by exact_mod_cast hmpos
  by_cases he : -51 ≤ e
  · obtain ⟨n, hn⟩ : ∃ n : Nat, e = (n : Int) - 51 :=
      ⟨(e + 51).toNat, by rw [Int.toNat_of_nonneg (by omega)]; ring⟩
    have hpe : (2 : ℚ) ^ e = (2 : ℚ) ^ n / 2 ^ 51 := by
      rw [hn, zpow_sub₀ (by norm_num), zpow_natCast]
      norm_num
    rw [hpe] at h2 ⊢
    have h51 : (0 : ℚ) < 2 ^ 51 := by norm_num
    have hlt : (2 : ℚ) * 2 ^ 51 < (m : ℚ) * 2 ^ n := by
      have := mul_lt_mul_of_pos_right h2 h51
      rwa [mul_div_assoc', div_mul_cancel₀ _ h51.ne.symm] at this
    have hltZ : (2 : Int) * 2 ^ 51 < m * 2 ^ n := by exact_mod_cast hlt
    have hleZ : (2 : Int) * 2 ^ 51 + 1 ≤ m * 2 ^ n := hltZ
    have hle : (2 : ℚ) * 2 ^ 51 + 1 ≤ (m : ℚ) * 2 ^ n := by exact_mod_cast hleZ
    rw [mul_div_assoc', le_div_iff₀ h51]
    calc (2 + 1 / 2 ^ 51) * 2 ^ 51 = (2 : ℚ) * 2 ^ 51 + 1 := by norm_num
      _ ≤ (m : ℚ) * 2 ^ n := hle
  · exfalso
    have hle : (2 : ℚ) ^ e ≤ (2 : ℚ) ^ (-52 : Int) :=
      zpow_le_zpow_right₀ (by norm_num) (by omega)
    have h52 : (2 : ℚ) ^ (-52 : Int) = 1 / 2 ^ 52 := by norm_num [zpow_neg]
    have hmq2 : (m : ℚ) < 2 ^ 53 := by exact_mod_cast hmlt
    have h1 : (m : ℚ) * (2 : ℚ) ^ e ≤ (m : ℚ) * (1 / 2 ^ 52) := by
      rw [← h52]
      exact mul_le_mul_of_nonneg_left hle hmq.le
    have h3 : (m : ℚ) * (1 / 2 ^ 52) < 2 ^ 53 * (1 / 2 ^ 52) :=
      mul_lt_mul_of_pos_right hmq2 (by norm_num)
    have h4 : (2 : ℚ) ^ 53 * (1 / 2 ^ 52) = 2 := by norm_num
    linarith

theorem isDouble_two : isDouble 2 :=
  ⟨2, 0, by norm_num, by norm_num⟩

theorem isDouble_small_imaginary : isDouble (281475 / 2 ^ 48) :=
  ⟨281475, -48, by norm_num, by norm_num [zpow_neg]⟩

/-- The real modulus of `2 + 281475/2^48 i` lies strictly between 2 and `2 + 2^-52`. -/
theorem modulus_just_above_two :
    (2 : ℝ) < Complex.abs ⟨((2 : ℚ) : ℝ), ((281475 / 2 ^ 48 : ℚ) : ℝ)⟩ ∧
    Complex.abs ⟨((2 : ℚ) : ℝ), ((281475 / 2 ^ 48 : ℚ) : ℝ)⟩ < 2 + 1 / 2 ^ 52 := by
  constructor
  · rw [Complex.abs_apply, Complex.normSq_mk, Real.lt_sqrt (by norm_num)]
    push_cast
    norm_num
  · rw [Complex.abs_apply, Complex.normSq_mk, Real.sqrt_lt' (by norm_num)]
    push_cast
    norm_num

/-- The `double` nearest to the real modulus of `2 + 281475/2^48 i` is 2, and no other
`double` is as near. -/
theorem nearest_double_is_two (d : ℚ) (hd : isDouble d) (hne : d ≠ 2) :
    |((2 : ℚ) : ℝ) - Complex.abs ⟨((2 : ℚ) : ℝ), ((281475 / 2 ^ 48 : ℚ) : ℝ)⟩| <
      |(d : ℝ) - Complex.abs ⟨((2 : ℚ) : ℝ), ((281475 / 2 ^ 48 : ℚ) : ℝ)⟩| := by
  obtain ⟨hlo, hhi⟩ := modulus_just_above_two
  have h2 : ((2 : ℚ) : ℝ) = 2 := by norm_num
  rw [h2, abs_of_neg (by linarith)]
  rcases lt_or_gt_of_ne hne with hlt | hgt
  · have hdr : (d : ℝ) < 2 := by exact_mod_cast hlt
    rw [abs_of_neg (by linarith)]
    linarith
  · have hgap : (2 : ℝ) + 1 / 2 ^ 51 ≤ (d : ℝ) := by
      have hq : ((2 + 1 / 2 ^ 51 : ℚ) : ℝ) ≤ (d : ℝ) :=
        Rat.cast_le.2 (isDouble_gap_above_two d hd hgt)
      push_cast at hq
      exact hq
    have h51 : (1 : ℝ) / 2 ^ 51 = 2 * (1 / 2 ^ 52) := by norm_num
    rw [abs_of_pos (by linarith)]
    linarith

/-- With `std::abs` returning 2 at `2 + 281475/2^48 i`, the first check of the loop passes
and the count is at least 1. -/
theorem escapeCountAbs_pos_of_rounded (cabs : Cplx → ℚ) (c : Cplx) (precision : Nat)
    (hprec : 1 ≤ precision) (hcabs : cabs ⟨2, 281475 / 2 ^ 48⟩ = 2) :
    loopCondAbs cabs 2 precision ⟨2, 281475 / 2 ^ 48⟩ 0 = true ∧
    1 ≤ escapeCountAbs cabs c 2 precision ⟨2, 281475 / 2 ^ 48⟩ := by
  have hcond : loopCondAbs cabs 2 precision ⟨2, 281475 / 2 ^ 48⟩ 0 = true := by
    simp only [loopCondAbs, Bool.and_eq_true, decide_eq_true_eq, hcabs]
    exact ⟨by norm_num, by omega⟩
  refine ⟨hcond, ?_⟩
  unfold escapeCountAbs
  rw [escapeLoopAbs_unfold, if_pos hcond]
  exact (escapeLoopAbs_spec cabs c 2 precision (precision - (0 + 1)) _ (0 + 1) rfl
    (by omega)).1

/-- C2: the escape loop terminates after at most `precision` executions of its body (a
budget of `precision` body executions is enough for the loop to exit with its result), and
the iteration count it returns lies in `[0, precision]`. -/
theorem escapeCount_terminates_within_precision (c z0 : Cplx) (tolerance : Int)
    (precision : Nat) :
    escapeLoopFuel c tolerance precision precision z0 0 =
      some (escapeCount c tolerance precision z0) ∧
    0 ≤ escapeCount c tolerance precision z0 ∧
    escapeCount c tolerance precision z0 ≤ precision := by
  obtain ⟨-, h2, -, -, h5⟩ :=
    escapeLoop_spec c tolerance precision precision z0 0 (by omega) (Nat.zero_le _)
  exact ⟨h5, Nat.zero_le _, h2⟩

/-! ## Row bands: coverage and disjointness -/

theorem band_index_exists (q N r : Nat) (h : r < N * q) :
    ∃ i, i < N ∧ q * i ≤ r ∧ r < q * (i + 1) := by
  have hq : 0 < q := by
    rcases Nat.eq_zero_or_pos q with h0 | h0
    · subst h0; simp at h
    · exact h0
  refine ⟨r / q, ?_, ?_, ?_⟩
  · exact (Nat.div_lt_iff_lt_mul hq).2 h
  · exact Nat.mul_div_le r q
  · exact Nat.lt_mul_div_succ r hq

theorem band_upper_bound (q N i r : Nat) (hi : i < N) (h : r < q * (i + 1)) : r < N * q := by
  calc r < q * (i + 1) := h
    _ ≤ q * N := Nat.mul_le_mul_left q hi
    _ = N * q := Nat.mul_comm q N

/-- C3: for every `Height` and thread count `N ≥ 1`, a row `r` belongs to some band
`[floor(Height/N)*i, floor(Height/N)*(i+1))`, `i < N`, if and only if
`r < N * floor(Height/N)`; the rows from `N * floor(Height/N)` up to `Height`, `Height mod N`
of them, are in no band. For `Height = 10`, `N = 3` the bands are `[0,3)`, `[3,6)`, `[6,9)`
and row 9 is in no band. -/
theorem band_coverage (Height N : Nat) (hN : 1 ≤ N) :
    (∀ r, (∃ i, i < N ∧ inBand Height N i r) ↔ r < N * (Height / N)) ∧
    N * (Height / N) + Height % N = Height ∧
    (∀ r, N * (Height / N) ≤ r → r < Height → ¬ ∃ i, i < N ∧ inBand Height N i r) ∧
    (startRow 10 3 0 = 0 ∧ endRow 10 3 0 = 3) ∧
    (startRow 10 3 1 = 3 ∧ endRow 10 3 1 = 6) ∧
    (startRow 10 3 2 = 6 ∧ endRow 10 3 2 = 9) ∧
    (¬ ∃ i, i < 3 ∧ inBand 10 3 i 9) := by
  have hcov : ∀ H M r, (∃ i, i < M ∧ inBand H M i r) ↔ r < M * (H / M) := by
    intro H M r
    constructor
    · rintro ⟨i, hi, -, h2⟩
      exact band_upper_bound (H / M) M i r hi h2
    · intro h
      obtain ⟨i, hi, h1, h2⟩ := band_index_exists (H / M) M r h
      exact ⟨i, hi, h1, h2⟩
  refine ⟨hcov Height N, Nat.div_add_mod Height N, ?_, ⟨rfl, rfl⟩, ⟨rfl, rfl⟩, ⟨rfl, rfl⟩, ?_⟩
  · intro r hr _ hex
    have := (hcov Height N r).1 hex
    omega
  · intro hex
    have := (hcov 10 3 9).1 hex
    omega

theorem band_coverage_witness :
    1 ≤ 4 ∧ ((∃ i, i < 4 ∧ inBand 2250 4 i 2248) ↔ 2248 < 4 * (2250 / 4)) :=
  ⟨by decide, (band_coverage 2250 4 (by decide)).1 2248⟩

theorem bands_ordered (q i j r : Nat) (hij : i < j) (h1 : r < q * (i + 1)) (h2 : q * j ≤ r) :
    False := by
  have : q * (i + 1) ≤ q * j := Nat.mul_le_mul_left q hij
  omega

/-- C4: for every `Height` and `N` with `1 ≤ N ≤ Height` and distinct worker indices
`i ≠ j` below `N`, the row bands `[startRow, endRow)` of `i` and of `j` have no row in
common. -/
theorem bands_disjoint (Height N i j : Nat) (hN : 1 ≤ N) (hNH : N ≤ Height) (hi : i < N)
    (hj : j < N) (hij : i ≠ j) :
    ∀ r, ¬ (inBand Height N i r ∧ inBand Height N j r) := by
  rintro r ⟨⟨a1, a2⟩, ⟨b1, b2⟩⟩
  rcases Nat.lt_or_gt_of_ne hij with h | h
  · exact bands_ordered (Height / N) i j r h a2 b1
  · exact bands_ordered (Height / N) j i r h b2 a1

theorem bands_disjoint_witness :
    1 ≤ 3 ∧ 3 ≤ 10 ∧ 0 < 3 ∧ 2 < 3 ∧ 0 ≠ 2 ∧ ¬ (inBand 10 3 0 2 ∧ inBand 10 3 2 2) :=
  ⟨by decide, by decide, by decide, by decide, by decide,
    bands_disjoint 10 3 0 2 (by decide) (by decide) (by decide) (by decide) (by decide) 2⟩

/-! ## Colour mapping: channel range -/

theorem truncToInt_range (q : ℚ) (h0 : 0 ≤ q) (h1 : q < 256) :
    0 ≤ truncToInt q ∧ truncToInt q ≤ 255 := by
  unfold truncToInt
  rw [if_pos h0]
  constructor
  · exact Int.floor_nonneg.2 h0
  · have : ⌊q⌋ < 256 := by
      rw [Int.floor_lt]
      exact_mod_cast h1
    omega

theorem fmod_range (a b : ℚ) (ha : 0 ≤ a) (hb : 0 < b) :
    0 ≤ fmod a b ∧ fmod a b < b := by
  have hab : 0 ≤ a / b := div_nonneg ha hb.le
  unfold fmod truncToInt
  rw [if_pos hab]
  have h1 : (⌊a / b⌋ : ℚ) ≤ a / b := Int.floor_le _
  have h2 : a / b < (⌊a / b⌋ : ℚ) + 1 := Int.lt_floor_add_one _
  have e : a = a / b * b := by field_simp
  constructor
  · have : (⌊a / b⌋ : ℚ) * b ≤ a / b * b := mul_le_mul_of_nonneg_right h1 hb.le
    linarith
  · have : a / b * b < ((⌊a / b⌋ : ℚ) + 1) * b := mul_lt_mul_of_pos_right h2 hb
    linarith

/-- Channel range of `hsvToRgb` for a non-negative hue and saturation and value in
`[0, 1]`. -/
theorem hsvToRgb_range (hue saturation value : ℚ) (hh : 0 ≤ hue)
    (hs0 : 0 ≤ saturation) (hs1 : saturation ≤ 1) (hv0 : 0 ≤ value) (hv1 : value ≤ 1) :
    (0 ≤ (hsvToRgb hue saturation value).r ∧ (hsvToRgb hue saturation value).r ≤ 255) ∧
    (0 ≤ (hsvToRgb hue saturation value).g ∧ (hsvToRgb hue saturation value).g ≤ 255) ∧
    (0 ≤ (hsvToRgb hue saturation value).b ∧ (hsvToRgb hue saturation value).b ≤ 255) := by
  obtain ⟨f0, f2⟩ := fmod_range (hue / 60) 2 (div_nonneg hh (by norm_num)) (by norm_num)
  have ht0 : 0 ≤ 1 - |fmod (hue / 60) 2 - 1| := by
    have : |fmod (hue / 60) 2 - 1| ≤ 1 := abs_le.2 ⟨by linarith, by linarith⟩
    linarith
  have ht1 : 1 - |fmod (hue / 60) 2 - 1| ≤ 1 := by
    have := abs_nonneg (fmod (hue / 60) 2 - 1)
    linarith
  have hc0 : 0 ≤ value * saturation := mul_nonneg hv0 hs0
  have hc1 : value * saturation ≤ value := by
    have := mul_le_mul_of_nonneg_left hs1 hv0
    linarith
  have hx0 : 0 ≤ value * saturation * (1 - |fmod (hue / 60) 2 - 1|) := mul_nonneg hc0 ht0
  have hx1 : value * saturation * (1 - |fmod (hue / 60) 2 - 1|) ≤ value * saturation := by
    have := mul_le_mul_of_nonneg_left ht1 hc0
    linarith
  have key : ∀ u : ℚ, 0 ≤ u → u ≤ value * saturation →
      0 ≤ truncToInt ((u + (value - value * saturation)) * 255) ∧
      truncToInt ((u + (value - value * saturation)) * 255) ≤ 255 := by
    intro u hu0 hu1
    apply truncToInt_range
    · nlinarith
    · nlinarith
  have kc := key (value * saturation) hc0 le_rfl
  have kx := key _ hx0 hx1
  have kz := key 0 le_rfl hc0
  unfold hsvToRgb
  simp only []
  split_ifs <;> exact ⟨by assumption, by assumption, by assumption⟩

/-- C5: for every normalized distance `d` with `0 ≤ d < 1`, with the configured exponent
0.9, constant 0.5 and scale 0.1, `powerColor(d)` returns an RGB triple whose `r`, `g` and
`b` are each integers in `[0, 255]`. Of `std::pow` only its range is used: `x ^ 0.9` lies in
`[0, 1]` for `x` in `[0, 1)`. -/
theorem powerColor_channels_in_range (pow : ℚ → ℚ → ℚ)
    (hpow : ∀ x, 0 ≤ x → x < 1 → 0 ≤ pow x exponent ∧ pow x exponent ≤ 1)
    (d : ℚ) (hd0 : 0 ≤ d) (hd1 : d < 1) :
    (0 ≤ (powerColor pow d).r ∧ (powerColor pow d).r ≤ 255) ∧
    (0 ≤ (powerColor pow d).g ∧ (powerColor pow d).g ≤ 255) ∧
    (0 ≤ (powerColor pow d).b ∧ (powerColor pow d).b ≤ 255) := by
  obtain ⟨hp0, hp1⟩ := hpow d hd0 hd1
  unfold powerColor
  simp only []
  have hs : 0 ≤ constant + d / scale := by
    have : 0 ≤ d / scale := div_nonneg hd0 (by norm_num [scale])
    have : (0 : ℚ) ≤ constant := by norm_num [constant]
    linarith
  obtain ⟨h0, -⟩ := fmod_range (constant + d / scale) 1 hs (by norm_num)
  apply hsvToRgb_range
  · exact mul_nonneg h0 (by norm_num)
  · linarith
  · linarith
  · norm_num
  · norm_num

theorem powerColor_channels_in_range_witness :
    (0 ≤ (powerColor (fun x _ => x) (1 / 2)).r ∧ (powerColor (fun x _ => x) (1 / 2)).r ≤ 255) ∧
    (0 ≤ (powerColor (fun x _ => x) (1 / 2)).g ∧ (powerColor (fun x _ => x) (1 / 2)).g ≤ 255) ∧
    (0 ≤ (powerColor (fun x _ => x) (1 / 2)).b ∧ (powerColor (fun x _ => x) (1 / 2)).b ≤ 255) :=
  powerColor_channels_in_range (fun x _ => x) (fun x h0 h1 => ⟨h0, le_of_lt h1⟩) (1 / 2)
    (by norm_num) (by norm_num)

/-! ## Bitmap encoder: helper lemmas -/

theorem and_255_eq_mod (x : Nat) : x &&& 0xff = x % 256 :=
  Nat.and_pow_two_sub_one_eq_mod x 8

theorem header_byte_1 (x : Nat) : (x >>> 8) &&& 0xff = x / 256 % 256 := by
  rw [and_255_eq_mod, Nat.shiftRight_eq_div_pow]

theorem header_byte_2 (x : Nat) : (x >>> 16) &&& 0xff = x / 65536 % 256 := by
  rw [and_255_eq_mod, Nat.shiftRight_eq_div_pow]

theorem header_byte_3 (x : Nat) : (x >>> 24) &&& 0xff = x / 16777216 % 256 := by
  rw [and_255_eq_mod, Nat.shiftRight_eq_div_pow]

theorem bmpHeader_eq (Width Height : Nat) :
    bmpHeader Width Height =
      [66, 77] ++ le32 (fileSize Width Height) ++ [0, 0, 0, 0] ++ le32 54 ++ le32 40 ++
        le32 Width ++ le32 Height ++ [1, 0] ++ [24, 0] ++ List.replicate 24 0 := by
  simp only [bmpHeader, bmpHeaderInit, List.set, le32, and_255_eq_mod,
    Nat.shiftRight_eq_div_pow]
  rfl

theorem bmpHeader_length (Width Height : Nat) : (bmpHeader Width Height).length = 54 := by
  simp [bmpHeader, bmpHeaderInit]

theorem leValue_le32 (n : Nat) (h : n < 2 ^ 32) : leValue (le32 n) = n := by
  simp only [le32, leValue]
  omega

theorem packed_eq_sum (r g b : Nat) (hg : g < 256) (hb : b < 256) :
    r <<< 16 ||| g <<< 8 ||| b = 2 ^ 8 * (2 ^ 8 * r + g) + b := by
  have e1 : r <<< 16 = 2 ^ 8 * (2 ^ 8 * r) := by
    rw [Nat.shiftLeft_eq]; ring
  have e2 : g <<< 8 = 2 ^ 8 * g := by
    rw [Nat.shiftLeft_eq]; ring
  have e3 : 2 ^ 8 * (2 ^ 8 * r) ||| 2 ^ 8 * g = 2 ^ 8 * (2 ^ 8 * r ||| g) := by
    apply Nat.eq_of_testBit_eq
    intro i
    simp only [Nat.testBit_or, Nat.testBit_mul_pow_two]
    by_cases hi : 8 ≤ i <;> simp [hi]
  rw [e1, e2, e3, ← Nat.mul_add_lt_is_or (by simpa using hb),
    ← Nat.mul_add_lt_is_or (by simpa using hg)]

theorem cellBytes_packed (r g b : Nat) (hr : r < 256) (hg : g < 256) (hb : b < 256) :
    cellBytes (r <<< 16 ||| g <<< 8 ||| b) = [b, g, r] := by
  rw [packed_eq_sum r g b hg hb]
  simp only [cellBytes]
  have h0 : (2 ^ 8 * (2 ^ 8 * r + g) + b) % 256 = b := by omega
  have h1 : (2 ^ 8 * (2 ^ 8 * r + g) + b) / 256 % 256 = g := by omega
  have h2 : (2 ^ 8 * (2 ^ 8 * r + g) + b) / 65536 % 256 = r := by omega
  rw [h0, h1, h2]

/-- Length of the concatenation of `n` blocks of length `L` each. -/
theorem length_flatMap_range {α : Type} (f : Nat → List α) (L : Nat)
    (hL : ∀ i, (f i).length = L) (n : Nat) :
    ((List.range n).flatMap f).length = n * L := by
  induction n with
  | zero => simp
  | succ n ih =>
    rw [List.range_succ, List.flatMap_append, List.length_append, ih, List.flatMap_singleton,
      hL]
    ring

/-- Element `j` of block `i` in the concatenation of `n` blocks of length `L` each. -/
theorem getElem?_flatMap_range {α : Type} (f : Nat → List α) (L : Nat)
    (hL : ∀ i, (f i).length = L) (n i j : Nat) (hi : i < n) (hj : j < L) :
    ((List.range n).flatMap f)[i * L + j]? = (f i)[j]? := by
  induction n with
  | zero => omega
  | succ n ih =>
    rw [List.range_succ, List.flatMap_append, List.flatMap_singleton]
    have hlen := length_flatMap_range f L hL n
    by_cases hin : i < n
    · have hlt : i * L + j < n * L := by
        have : (i + 1) * L ≤ n * L := Nat.mul_le_mul_right L hin
        rw [Nat.add_mul] at this
        omega
      rw [List.getElem?_append_left (by rw [hlen]; exact hlt)]
      exact ih hin
    · have hieq : i = n := by omega
      subst hieq
      rw [List.getElem?_append_right (by rw [hlen]; omega), hlen]
      congr 1
      omega

/-- Block `i` of the concatenation of `n` blocks of length `L` each. -/
theorem take_drop_flatMap_range {α : Type} (f : Nat → List α) (L : Nat)
    (hL : ∀ i, (f i).length = L) (n i : Nat) (hi : i < n) :
    (((List.range n).flatMap f).drop (i * L)).take L = f i := by
  apply List.ext_getElem?
  intro j
  rw [List.getElem?_take, List.getElem?_drop]
  by_cases hj : j < L
  · rw [if_pos hj, getElem?_flatMap_range f L hL n i j hi hj]
  · rw [if_neg hj, eq_comm, List.getElem?_eq_none_iff, hL]
    omega

theorem padding_le (Width : Nat) : padding Width ≤ 3 := by
  unfold padding; omega

theorem rowStride_dvd (Width : Nat) : 4 ∣ rowStride Width := by
  unfold rowStride padding; omega

theorem pixels_length (Width : Nat) (image : Grid) (y : Nat) :
    ((List.range Width).flatMap (fun x => cellBytes (image y x))).length = 3 * Width := by
  rw [length_flatMap_range (fun x => cellBytes (image y x)) 3 (fun _ => rfl), Nat.mul_comm]

theorem rowBytes_eq (Width : Nat) (image : Grid) (y : Nat) :
    rowBytes Width image y =
      (List.range Width).flatMap (fun x => cellBytes (image y x)) ++
        List.replicate (padding Width) 0 := by
  simp [rowBytes, List.map_const']

theorem rowBytes_length (Width : Nat) (image : Grid) (y : Nat) :
    (rowBytes Width image y).length = rowStride Width := by
  rw [rowBytes_eq, List.length_append, pixels_length, List.length_replicate, rowStride]

theorem saveImage_body (Width Height : Nat) (image : Grid) :
    saveImage Width Height image =
      bmpHeader Width Height ++
        (List.range Height).flatMap (fun k => rowBytes Width image (Height - 1 - k)) := by
  have hrev : (List.range Height).reverse =
      List.map (fun k => Height - 1 - k) (List.range Height) := by
    conv_lhs => rw [List.range_eq_range', List.reverse_range']
    simp
  unfold saveImage
  rw [hrev, List.flatMap_map]

/-- The slice of the output holding the `k`-th emitted row. -/
theorem saveImage_row_slice (Width Height : Nat) (image : Grid) (k : Nat) (hk : k < Height) :
    ((saveImage Width Height image).drop (54 + k * rowStride Width)).take (rowStride Width) =
      rowBytes Width image (Height - 1 - k) := by
  rw [saveImage_body, ← bmpHeader_length Width Height, List.drop_append]
  exact take_drop_flatMap_range (fun k => rowBytes Width image (Height - 1 - k))
    (rowStride Width) (fun _ => rowBytes_length _ _ _) Height k hk

theorem saveImage_getElem? (Width Height : Nat) (image : Grid) (row j : Nat)
    (hrow : row < Height) (hj : j < rowStride Width) :
    (saveImage Width Height image)[54 + (Height - 1 - row) * rowStride Width + j]? =
      (rowBytes Width image row)[j]? := by
  have h := saveImage_row_slice Width Height image (Height - 1 - row) (by omega)
  have hrow2 : Height - 1 - (Height - 1 - row) = row := by omega
  rw [hrow2] at h
  rw [← h, List.getElem?_take, if_pos hj, List.getElem?_drop]

theorem rowBytes_getElem? (Width : Nat) (image : Grid) (row column j : Nat)
    (hc : column < Width) (hj : j < 3) :
    (rowBytes Width image row)[3 * column + j]? = (cellBytes (image row column))[j]? := by
  rw [rowBytes_eq, List.getElem?_append_left (by rw [pixels_length]; omega), Nat.mul_comm]
  exact getElem?_flatMap_range (fun x => cellBytes (image row x)) 3 (fun _ => rfl) Width
    column j hc hj

/-! ## Bitmap encoder: header, pixel order, padding, length -/

/-- C6: for every `Width` and `Height` with `54 + Width*Height*3 < 2^31`, the first 54 bytes
`saveImage` emits are exactly `'B','M'`; the 32-bit little-endian value
`54 + Width*Height*3`; four zero bytes; little-endian 54; little-endian 40; little-endian
`Width`; little-endian `Height`; `1,0`; `24,0`; then 24 zero bytes (`le32` is read back by
`leValue` for every value below `2^32`). For `Width = 4`, `Height = 2`, bytes 2-5 decode to
78 and bytes 10-13 decode to 54. -/
theorem saveImage_header_bytes (Width Height : Nat) (image : Grid)
    (h : 54 + Width * Height * 3 < 2 ^ 31) :
    (saveImage Width Height image).take 54 =
      [66, 77] ++ le32 (54 + Width * Height * 3) ++ [0, 0, 0, 0] ++ le32 54 ++ le32 40 ++
        le32 Width ++ le32 Height ++ [1, 0] ++ [24, 0] ++ List.replicate 24 0 ∧
    (∀ n, n < 2 ^ 32 → leValue (le32 n) = n ∧ ∀ x ∈ le32 n, x < 256) ∧
    (∀ img : Grid, leValue (((saveImage 4 2 img).drop 2).take 4) = 78 ∧
      leValue (((saveImage 4 2 img).drop 10).take 4) = 54) := by
  have hfs : fileSize Width Height = 54 + Width * Height * 3 := by
    unfold fileSize
    exact Nat.mod_eq_of_lt (by omega)
  refine ⟨?_, ?_, ?_⟩
  · unfold saveImage
    rw [List.take_left' (bmpHeader_length Width Height), bmpHeader_eq, hfs]
  · intro n hn
    refine ⟨leValue_le32 n hn, ?_⟩
    intro x hx
    simp only [le32, List.mem_cons, List.mem_singleton, List.not_mem_nil, or_false] at hx
    omega
  · intro img
    have e : ∀ l : List Nat, bmpHeader 4 2 ++ l =
        [66, 77, 78, 0, 0, 0, 0, 0, 0, 0, 54, 0, 0, 0] ++ ((bmpHeader 4 2).drop 14 ++ l) := by
      intro l
      rw [bmpHeader_eq]
      rfl
    unfold saveImage
    rw [e]
    constructor <;> rfl

theorem saveImage_header_bytes_witness :
    54 + 4 * 2 * 3 < 2 ^ 31 ∧
    (saveImage 4 2 zeroGrid).take 54 =
      [66, 77] ++ le32 (54 + 4 * 2 * 3) ++ [0, 0, 0, 0] ++ le32 54 ++ le32 40 ++
        le32 4 ++ le32 2 ++ [1, 0] ++ [24, 0] ++ List.replicate 24 0 :=
  ⟨by decide, (saveImage_header_bytes 4 2 zeroGrid (by decide)).1⟩

/-- C7: for every cell `(row, column)` with `row < Height`, `column < Width` that holds a
packed value `(r<<16)|(g<<8)|b` with `r`, `g`, `b` in `[0,255]`, the bytes `saveImage` emits
at offsets `54 + (Height-1-row)*S + 3*column + 0, +1, +2`, with `S` the padded row length,
are `b`, `g`, `r`: rows appear bottom-to-top, columns left-to-right, each pixel as blue,
green, red. -/
theorem saveImage_pixel_bytes (Width Height : Nat) (image : Grid) (row column r g b : Nat)
    (hrow : row < Height) (hcol : column < Width)
    (hr : r < 256) (hg : g < 256) (hb : b < 256)
    (hv : image row column = r <<< 16 ||| g <<< 8 ||| b) :
    (saveImage Width Height image)[54 + (Height - 1 - row) * rowStride Width
      + 3 * column + 0]? = some b ∧
    (saveImage Width Height image)[54 + (Height - 1 - row) * rowStride Width
      + 3 * column + 1]? = some g ∧
    (saveImage Width Height image)[54 + (Height - 1 - row) * rowStride Width
      + 3 * column + 2]? = some r := by
  have hbyte : ∀ j, j < 3 →
      (saveImage Width Height image)[54 + (Height - 1 - row) * rowStride Width
        + 3 * column + j]? = [b, g, r][j]? := by
    intro j hj
    have hlt : 3 * column + j < rowStride Width := by
      unfold rowStride; omega
    rw [Nat.add_assoc (54 + (Height - 1 - row) * rowStride Width),
      saveImage_getElem? Width Height image row (3 * column + j) hrow hlt,
      rowBytes_getElem? Width image row column j hcol hj, hv, cellBytes_packed r g b hr hg hb]
  exact ⟨hbyte 0 (by omega), hbyte 1 (by omega), hbyte 2 (by omega)⟩

theorem saveImage_pixel_bytes_witness :
    (saveImage 2 2 (fun row column => if row = 1 ∧ column = 1 then 0x112233 else 0))[54
      + (2 - 1 - 1) * rowStride 2 + 3 * 1 + 0]? = some 0x33 ∧
    (saveImage 2 2 (fun row column => if row = 1 ∧ column = 1 then 0x112233 else 0))[54
      + (2 - 1 - 1) * rowStride 2 + 3 * 1 + 1]? = some 0x22 ∧
    (saveImage 2 2 (fun row column => if row = 1 ∧ column = 1 then 0x112233 else 0))[54
      + (2 - 1 - 1) * rowStride 2 + 3 * 1 + 2]? = some 0x11 :=
  saveImage_pixel_bytes 2 2 (fun row column => if row = 1 ∧ column = 1 then 0x112233 else 0)
    1 1 0x11 0x22 0x33 (by decide) (by decide) (by decide) (by decide) (by decide) (by decide)

/-- C8: each row `saveImage` emits (the `k`-th row occupies the `3*Width + p` bytes from
offset `54 + k*(3*Width + p)`) consists of the `3*Width` pixel bytes of grid row
`Height-1-k` followed by `p = (4 - (3*Width mod 4)) mod 4` bytes that are all zero;
`0 ≤ p ≤ 3` and the row length `3*Width + p` is a multiple of 4; for `Width = 1` every row
is padded with exactly 1 zero byte. -/
theorem saveImage_row_padding (Width Height : Nat) (image : Grid) (k : Nat)
    (hk : k < Height) :
    ((saveImage Width Height image).drop
        (54 + k * (3 * Width + (4 - (3 * Width) % 4) % 4))).take
        (3 * Width + (4 - (3 * Width) % 4) % 4) =
      (List.range Width).flatMap (fun x => cellBytes (image (Height - 1 - k) x)) ++
        List.replicate ((4 - (3 * Width) % 4) % 4) 0 ∧
    ((List.range Width).flatMap (fun x => cellBytes (image (Height - 1 - k) x))).length =
      3 * Width ∧
    0 ≤ (4 - (3 * Width) % 4) % 4 ∧ (4 - (3 * Width) % 4) % 4 ≤ 3 ∧
    4 ∣ 3 * Width + (4 - (3 * Width) % 4) % 4 ∧
    ((saveImage 1 Height image).drop (54 + k * 4)).take 4 =
      cellBytes (image (Height - 1 - k) 0) ++ [0] := by
  have hp : (4 - (3 * Width) % 4) % 4 = padding Width := by
    unfold padding; rw [Nat.mul_comm]
  have hs : 3 * Width + (4 - (3 * Width) % 4) % 4 = rowStride Width := by
    rw [hp, rowStride]
  have h1 := saveImage_row_slice 1 Height image k hk
  rw [rowBytes_eq] at h1
  rw [hs, hp, saveImage_row_slice Width Height image k hk, rowBytes_eq]
  exact ⟨rfl, pixels_length _ _ _, Nat.zero_le _, padding_le Width, rowStride_dvd Width, h1⟩

theorem saveImage_row_padding_witness :
    (0 : Nat) < 2 ∧
    ((saveImage 1 2 zeroGrid).drop (54 + 0 * 4)).take 4 = cellBytes (zeroGrid (2 - 1 - 0) 0) ++ [0] :=
  ⟨by decide, (saveImage_row_padding 1 2 zeroGrid 0 (by decide)).2.2.2.2.2⟩

theorem saveImage_length (Width Height : Nat) (image : Grid) :
    (saveImage Width Height image).length = 54 + Height * rowStride Width := by
  rw [saveImage_body, List.length_append, bmpHeader_length,
    length_flatMap_range (fun k => rowBytes Width image (Height - 1 - k)) (rowStride Width)
      (fun _ => rowBytes_length _ _ _)]

/-- C9: for every `Width` and `Height`, the total number of bytes `saveImage` emits is
`54 + Height*(3*Width + (4 - (3*Width mod 4)) mod 4)`, whatever the grid contents and
whatever thread count filled the grid; it is exactly `54 + Width*Height*3` whenever `Width`
is a multiple of 4 (78 bytes for `Width = 4`, `Height = 2`; `54 + 100*75*3` for
`Width = 100`, `Height = 75`). -/
theorem saveImage_total_length (Width Height : Nat) :
    (∀ image : Grid, (saveImage Width Height image).length =
      54 + Height * (3 * Width + (4 - (3 * Width) % 4) % 4)) ∧
    (∀ (p : Params) (pow : ℚ → ℚ → ℚ) (numThreads : Nat),
      (saveImage p.Width p.Height (runWorkers p pow numThreads zeroGrid)).length =
        54 + p.Height * (3 * p.Width + (4 - (3 * p.Width) % 4) % 4)) ∧
    (∀ (m : Nat) (image : Grid),
      (saveImage (4 * m) Height image).length = 54 + (4 * m) * Height * 3) ∧
    (∀ image : Grid, (saveImage 4 2 image).length = 78) ∧
    (∀ image : Grid, (saveImage 100 75 image).length = 54 + 100 * 75 * 3) := by
  have hlen : ∀ W H (image : Grid), (saveImage W H image).length =
      54 + H * (3 * W + (4 - (3 * W) % 4) % 4) := by
    intro W H image
    rw [saveImage_length, rowStride, padding, Nat.mul_comm W 3]
  refine ⟨hlen Width Height, ?_, ?_, ?_, ?_⟩
  · intro p pow numThreads
    rw [hlen]
  · intro m image
    have hz : (4 - (3 * (4 * m)) % 4) % 4 = 0 := by omega
    rw [hlen, hz, Nat.add_zero]
    ring
  · intro image
    rw [hlen]
  · intro image
    rw [hlen]

/-! ## The worker: which cells it writes -/

theorem computeCell_apply (p : Params) (pow : ℚ → ℚ → ℚ) (row column : Nat) (image : Grid)
    (r k : Nat) :
    computeCell p pow row column image r k =
      if r = row ∧ k = column ∧ cellIterations p row column < p.precision then
        cellColour p pow row column
      else image r k := by
  unfold computeCell
  simp only []
  by_cases hit : cellIterations p row column < p.precision
  · rw [if_pos hit]
    unfold setCell cellColour
    by_cases hrk : r = row ∧ k = column
    · rw [if_pos hrk, if_pos ⟨hrk.1, hrk.2, hit⟩]
    · rw [if_neg hrk, if_neg (fun h => hrk ⟨h.1, h.2.1⟩)]
  · rw [if_neg hit, if_neg (fun h => hit h.2.2)]

/-- The cells after the first `n` columns of a row have been processed. -/
theorem computeColumns_apply (p : Params) (pow : ℚ → ℚ → ℚ) (row : Nat) (image : Grid)
    (n r k : Nat) :
    (List.range n).foldl (fun img column => computeCell p pow row column img) image r k =
      if r = row ∧ k < n ∧ cellIterations p r k < p.precision then cellColour p pow r k
      else image r k := by
  induction n with
  | zero => simp
  | succ n ih =>
    rw [List.range_succ, List.foldl_append, List.foldl_cons, List.foldl_nil,
      computeCell_apply, ih]
    by_cases h1 : r = row ∧ k = n ∧ cellIterations p row n < p.precision
    · obtain ⟨rfl, rfl, hit⟩ := h1
      rw [if_pos ⟨rfl, rfl, hit⟩, if_pos ⟨rfl, Nat.lt_succ_self _, hit⟩]
    · rw [if_neg h1]
      by_cases h2 : r = row ∧ k < n ∧ cellIterations p r k < p.precision
      · rw [if_pos h2, if_pos ⟨h2.1, Nat.lt_succ_of_lt h2.2.1, h2.2.2⟩]
      · rw [if_neg h2, if_neg]
        rintro ⟨hr, hk, hit⟩
        rcases Nat.lt_succ_iff_lt_or_eq.1 hk with hk | hk
        · exact h2 ⟨hr, hk, hit⟩
        · subst hr; subst hk
          exact h1 ⟨rfl, rfl, hit⟩

theorem computeRow_apply (p : Params) (pow : ℚ → ℚ → ℚ) (row : Nat) (image : Grid)
    (r k : Nat) :
    computeRow p pow row image r k =
      if r = row ∧ k < p.Width ∧ cellIterations p r k < p.precision then cellColour p pow r k
      else image r k :=
  computeColumns_apply p pow row image p.Width r k

/-- The cells after the rows `s, ..., s + n - 1` have been processed. -/
theorem computeRows_apply (p : Params) (pow : ℚ → ℚ → ℚ) (s : Nat) (image : Grid)
    (n r k : Nat) :
    (List.range' s n).foldl (fun img row => computeRow p pow row img) image r k =
      if (s ≤ r ∧ r < s + n) ∧ k < p.Width ∧ cellIterations p r k < p.precision then
        cellColour p pow r k
      else image r k := by
  induction n with
  | zero =>
    rw [List.range'_zero, List.foldl_nil, if_neg]
    rintro ⟨⟨h1, h2⟩, -⟩
    omega
  | succ n ih =>
    rw [List.range'_concat, List.foldl_append, List.foldl_cons, List.foldl_nil,
      computeRow_apply, ih, Nat.one_mul]
    by_cases h1 : r = s + n ∧ k < p.Width ∧ cellIterations p r k < p.precision
    · rw [if_pos h1, if_pos ⟨⟨by omega, by omega⟩, h1.2⟩]
    · rw [if_neg h1]
      by_cases h2 : (s ≤ r ∧ r < s + n) ∧ k < p.Width ∧ cellIterations p r k < p.precision
      · rw [if_pos h2, if_pos ⟨⟨h2.1.1, by omega⟩, h2.2⟩]
      · rw [if_neg h2, if_neg]
        rintro ⟨⟨ha, hb⟩, hrest⟩
        by_cases hr : r = s + n
        · exact h1 ⟨hr, hrest⟩
        · exact h2 ⟨⟨ha, by omega⟩, hrest⟩

/-- Every cell of the grid after `computeJulia(idx, threads)`. -/
theorem computeJulia_apply (p : Params) (pow : ℚ → ℚ → ℚ) (idx threads : Nat) (image : Grid)
    (r k : Nat) :
    computeJulia p pow idx threads image r k =
      if inBand p.Height threads idx r ∧ k < p.Width ∧ cellIterations p r k < p.precision then
        cellColour p pow r k
      else image r k := by
  unfold computeJulia
  rw [computeRows_apply]
  have hle : startRow p.Height threads idx ≤ endRow p.Height threads idx :=
    Nat.mul_le_mul_left _ (Nat.le_succ idx)
  have hadd : startRow p.Height threads idx +
      (endRow p.Height threads idx - startRow p.Height threads idx) =
      endRow p.Height threads idx := by omega
  rw [hadd]
  rfl

/-- C10: for every grid, thread count `N ≥ 1` and worker index `idx < N`, running
`computeJulia(idx, N)` leaves unchanged every cell whose row lies outside band `idx` and
every cell whose escape count equals `precision`; only cells in the band with escape count
below `precision` are written: a cell that differs afterwards is such a cell, and every
such cell holds the packed colour of its escape count. -/
theorem computeJulia_frame (p : Params) (pow : ℚ → ℚ → ℚ) (image : Grid) (N idx : Nat)
    (hN : 1 ≤ N) (hidx : idx < N) (row column : Nat) :
    (¬ inBand p.Height N idx row → computeJulia p pow idx N image row column = image row column) ∧
    (cellIterations p row column = p.precision →
      computeJulia p pow idx N image row column = image row column) ∧
    (computeJulia p pow idx N image row column ≠ image row column →
      inBand p.Height N idx row ∧ column < p.Width ∧
        cellIterations p row column < p.precision) ∧
    (inBand p.Height N idx row → column < p.Width →
      cellIterations p row column < p.precision →
      computeJulia p pow idx N image row column =
        packRGB (powerColor pow ((cellIterations p row column : ℚ) / (p.precision : ℚ)))) := by
  rw [computeJulia_apply]
  refine ⟨?_, ?_, ?_, ?_⟩
  · intro h
    rw [if_neg (fun hc => h hc.1)]
  · intro h
    rw [if_neg (fun hc => by have := hc.2.2; omega)]
  · intro h
    by_contra hc
    exact h (if_neg hc)
  · intro h1 h2 h3
    rw [if_pos ⟨h1, h2, h3⟩]
    rfl

theorem computeJulia_frame_witness :
    1 ≤ 2 ∧ 0 < 2 ∧ ¬ inBand 4 2 0 3 ∧
    computeJulia { sourceParams with Width := 4, Height := 4 } (fun x _ => x) 0 2 zeroGrid 3 1
      = zeroGrid 3 1 :=
  ⟨by decide, by decide, by decide,
    (computeJulia_frame { sourceParams with Width := 4, Height := 4 } (fun x _ => x) zeroGrid
      2 0 (by decide) (by decide) 3 1).1 (by decide)⟩

/-! ## Escape loop: boundary cases -/

theorem orbit_origin (k : Nat) : orbit ⟨0, 0⟩ ⟨0, 0⟩ k = ⟨0, 0⟩ := by
  induction k with
  | zero => rfl
  | succ k ih =>
    simp only [orbit, ih, juliaStep, Cplx.mul, Cplx.add]
    norm_num

theorem absLe_origin (t : ℚ) (ht : 0 ≤ t) : absLe ⟨0, 0⟩ t = true := by
  simp only [absLe, decide_eq_true_eq]
  exact ⟨ht, by nlinarith⟩

/-- C12: for every `precision ≥ 1` and `tolerance > 0`, the escape loop started at
`z0 = 0 + 0i` with Julia constant `c = 0` never escapes (every point of the orbit has
modulus at most `tolerance`) and returns exactly `precision`. -/
theorem escapeCount_origin_zero_constant (tolerance : Int) (precision : Nat)
    (hprec : 1 ≤ precision) (htol : 0 < tolerance) :
    escapeCount ⟨0, 0⟩ tolerance precision ⟨0, 0⟩ = precision ∧
    ∀ k, Complex.abs ⟨((orbit ⟨0, 0⟩ ⟨0, 0⟩ k).re : ℝ), ((orbit ⟨0, 0⟩ ⟨0, 0⟩ k).im : ℝ)⟩ ≤
      (tolerance : ℝ) := by
  have ht : (0 : ℚ) ≤ (tolerance : ℚ) := by exact_mod_cast htol.le
  have hin : ∀ k, absLe (orbit ⟨0, 0⟩ ⟨0, 0⟩ k) (tolerance : ℚ) = true := by
    intro k
    rw [orbit_origin]
    exact absLe_origin _ ht
  constructor
  · obtain ⟨-, -, -, h4, -⟩ :=
      escapeLoop_spec ⟨0, 0⟩ tolerance precision precision ⟨0, 0⟩ 0 (by omega) (Nat.zero_le _)
    rcases h4 with h4 | h4
    · exact h4
    · rw [hin] at h4
      exact absurd h4 (by decide)
  · intro k
    have := (absLe_iff _ _).1 (hin k)
    exact_mod_cast this

theorem escapeCount_origin_zero_constant_witness :
    1 ≤ 200 ∧ (0 : Int) < 2 ∧ escapeCount ⟨0, 0⟩ 2 200 ⟨0, 0⟩ = 200 :=
  ⟨by decide, by decide, (escapeCount_origin_zero_constant 2 200 (by decide) (by decide)).1⟩

/-- C13 fails on the code: at the start point `z0 = 2 + 281475/2^48 i` (both parts are
doubles) with `tolerance = 2`, `precision = 200` and `c = (-0.79, 0.15)`, the modulus
`|z0|` exceeds the tolerance, yet the `double` nearest to it is 2, so the first check
`abs(z0) <= tolerance` passes and the count is not 0; the next point has modulus above 3,
so the count is 1. -/
theorem rounded_modulus_passes_first_check :
    isDouble 2 ∧ isDouble (281475 / 2 ^ 48) ∧
    ((2 : Int) : ℝ) < Complex.abs ⟨((2 : ℚ) : ℝ), ((281475 / 2 ^ 48 : ℚ) : ℝ)⟩ ∧
    (∀ d, isDouble d → d ≠ 2 →
      |((2 : ℚ) : ℝ) - Complex.abs ⟨((2 : ℚ) : ℝ), ((281475 / 2 ^ 48 : ℚ) : ℝ)⟩| <
        |(d : ℝ) - Complex.abs ⟨((2 : ℚ) : ℝ), ((281475 / 2 ^ 48 : ℚ) : ℝ)⟩|) ∧
    (∀ cabs : Cplx → ℚ, cabs ⟨2, 281475 / 2 ^ 48⟩ = 2 →
      loopCondAbs cabs 2 200 ⟨2, 281475 / 2 ^ 48⟩ 0 = true ∧
      escapeCountAbs cabs ⟨-79 / 100, 15 / 100⟩ 2 200 ⟨2, 281475 / 2 ^ 48⟩ ≠ 0) ∧
    (3 : ℝ) < Complex.abs
      ⟨((juliaStep ⟨-79 / 100, 15 / 100⟩ ⟨2, 281475 / 2 ^ 48⟩).re : ℝ),
       ((juliaStep ⟨-79 / 100, 15 / 100⟩ ⟨2, 281475 / 2 ^ 48⟩).im : ℝ)⟩ ∧
    (∀ cabs : Cplx → ℚ, cabs ⟨2, 281475 / 2 ^ 48⟩ = 2 →
      2 < cabs (juliaStep ⟨-79 / 100, 15 / 100⟩ ⟨2, 281475 / 2 ^ 48⟩) →
      escapeCountAbs cabs ⟨-79 / 100, 15 / 100⟩ 2 200 ⟨2, 281475 / 2 ^ 48⟩ = 1) := by
  have hlo : ((2 : Int) : ℝ) <
      Complex.abs ⟨((2 : ℚ) : ℝ), ((281475 / 2 ^ 48 : ℚ) : ℝ)⟩ := by
    have := modulus_just_above_two.1
    norm_num at this ⊢
    exact this
  refine ⟨isDouble_two, isDouble_small_imaginary, hlo, nearest_double_is_two, ?_, ?_, ?_⟩
  · intro cabs hcabs
    obtain ⟨h1, h2⟩ :=
      escapeCountAbs_pos_of_rounded cabs ⟨-79 / 100, 15 / 100⟩ 200 (by decide) hcabs
    exact ⟨h1, by omega⟩
  · rw [Complex.abs_apply, Complex.normSq_mk, Real.lt_sqrt (by norm_num)]
    simp only [juliaStep, Cplx.mul, Cplx.add]
    push_cast
    norm_num
  · intro cabs hcabs hnext
    have hcond := (escapeCountAbs_pos_of_rounded cabs ⟨-79 / 100, 15 / 100⟩ 200 (by decide)
      hcabs).1
    have hcond1 : loopCondAbs cabs 2 200
        (juliaStep ⟨-79 / 100, 15 / 100⟩ ⟨2, 281475 / 2 ^ 48⟩) (0 + 1) = false := by
      simp only [loopCondAbs, Bool.and_eq_false_iff, decide_eq_false_iff_not]
      left
      have h2 : ((2 : Int) : ℚ) = 2 := by norm_num
      rw [h2]
      exact not_le.2 hnext
    unfold escapeCountAbs
    rw [escapeLoopAbs_unfold, if_pos hcond, escapeLoopAbs_unfold, hcond1]
    rfl

/-- C13, amended: for every constant `c`, `precision ≥ 1`, `tolerance > 0` and start point
`z0` whose modulus as `std::abs` returns it (a `double`, the modulus rounded) exceeds
`tolerance`, the escape loop fails its very first check and returns 0; conversely, under
`precision ≥ 1`, a returned count of 0 implies that the modulus as `std::abs` returns it
exceeds `tolerance`, and, when `std::abs` never returns more than `tolerance` for a
modulus of at most `tolerance`, that `|z0| > tolerance`. -/
theorem escapeCountAbs_zero_iff_start_outside (cabs : Cplx → ℚ) (c z0 : Cplx)
    (tolerance : Int) (precision : Nat) (hprec : 1 ≤ precision) (htol : 0 < tolerance) :
    ((tolerance : ℚ) < cabs z0 →
      loopCondAbs cabs tolerance precision z0 0 = false ∧
      escapeCountAbs cabs c tolerance precision z0 = 0) ∧
    (escapeCountAbs cabs c tolerance precision z0 = 0 → (tolerance : ℚ) < cabs z0) ∧
    ((∀ z : Cplx, Complex.abs ⟨(z.re : ℝ), (z.im : ℝ)⟩ ≤ (tolerance : ℝ) →
        cabs z ≤ (tolerance : ℚ)) →
      escapeCountAbs cabs c tolerance precision z0 = 0 →
      (tolerance : ℝ) < Complex.abs ⟨(z0.re : ℝ), (z0.im : ℝ)⟩) := by
  have hconv : escapeCountAbs cabs c tolerance precision z0 = 0 →
      (tolerance : ℚ) < cabs z0 := by
    intro hzero
    apply lt_of_not_le
    intro hle
    have hcond : loopCondAbs cabs tolerance precision z0 0 = true := by
      simp only [loopCondAbs, Bool.and_eq_true, decide_eq_true_eq]
      exact ⟨hle, by omega⟩
    unfold escapeCountAbs at hzero
    rw [escapeLoopAbs_unfold, if_pos hcond] at hzero
    obtain ⟨h1, -⟩ := escapeLoopAbs_spec cabs c tolerance precision (precision - (0 + 1))
      (juliaStep c z0) (0 + 1) rfl (by omega)
    omega
  refine ⟨?_, hconv, ?_⟩
  · intro hlt
    have hcond : loopCondAbs cabs tolerance precision z0 0 = false := by
      simp only [loopCondAbs, Bool.and_eq_false_iff, decide_eq_false_iff_not]
      left
      exact not_le.2 hlt
    refine ⟨hcond, ?_⟩
    unfold escapeCountAbs
    rw [escapeLoopAbs_unfold, hcond]
    rfl
  · intro hmono hzero
    apply lt_of_not_le
    intro hle
    exact absurd (hmono z0 hle) (not_le.2 (hconv hzero))

theorem escapeCountAbs_zero_iff_start_outside_witness :
    1 ≤ 200 ∧ (0 : Int) < 2 ∧
    (((2 : Int) : ℚ) < (fun z : Cplx => if z = ⟨3, 0⟩ then (3 : ℚ) else 0) ⟨3, 0⟩) ∧
    escapeCountAbs (fun z : Cplx => if z = ⟨3, 0⟩ then (3 : ℚ) else 0)
      ⟨-79 / 100, 15 / 100⟩ 2 200 ⟨3, 0⟩ = 0 :=
  have h : ((2 : Int) : ℚ) < (fun z : Cplx => if z = ⟨3, 0⟩ then (3 : ℚ) else 0) ⟨3, 0⟩ := by
    norm_num
  ⟨by decide, by decide, h,
    ((escapeCountAbs_zero_iff_start_outside (fun z : Cplx => if z = ⟨3, 0⟩ then (3 : ℚ) else 0)
      ⟨-79 / 100, 15 / 100⟩ ⟨3, 0⟩ 2 200 (by decide) (by decide)).1 h).2⟩

/-! ## Pixel to plane mapping -/

/-- C14: for `Width > 0`, `Height > 0` and non-zero `xRange`, `yRange`, the mapping
`(row, column) ↦ (minX + column*xRange/Width, maxY - row*yRange/Height)` is injective in
exact arithmetic: two pixels map to the same complex coordinate only if they are the same
pixel, so the mapping is a bijection between the pixel grid and its image. -/
theorem pixelPoint_injective (p : Params) (hW : 0 < p.Width) (hH : 0 < p.Height)
    (hx : p.xRange ≠ 0) (hy : p.yRange ≠ 0) :
    (∀ row1 column1 row2 column2,
      pixelPoint p row1 column1 = pixelPoint p row2 column2 →
        row1 = row2 ∧ column1 = column2) ∧
    Set.BijOn (fun rc : Nat × Nat => pixelPoint p rc.1 rc.2)
      {rc | rc.1 < p.Height ∧ rc.2 < p.Width}
      (Set.image (fun rc : Nat × Nat => pixelPoint p rc.1 rc.2)
        {rc | rc.1 < p.Height ∧ rc.2 < p.Width}) := by
  have hWq : (p.Width : ℚ) ≠ 0 := by exact_mod_cast hW.ne.symm
  have hHq : (p.Height : ℚ) ≠ 0 := by exact_mod_cast hH.ne.symm
  have hinj : ∀ row1 column1 row2 column2,
      pixelPoint p row1 column1 = pixelPoint p row2 column2 →
        row1 = row2 ∧ column1 = column2 := by
    intro row1 column1 row2 column2 h
    simp only [pixelPoint, Cplx.mk.injEq] at h
    obtain ⟨h1, h2⟩ := h
    constructor
    · have e : (row1 : ℚ) * p.yRange / p.Height = (row2 : ℚ) * p.yRange / p.Height := by
        linarith
      rw [div_left_inj' hHq] at e
      exact_mod_cast mul_right_cancel₀ hy e
    · have e : (column1 : ℚ) * p.xRange / p.Width = (column2 : ℚ) * p.xRange / p.Width := by
        linarith
      rw [div_left_inj' hWq] at e
      exact_mod_cast mul_right_cancel₀ hx e
  refine ⟨hinj, Set.InjOn.bijOn_image ?_⟩
  intro a _ b _ hab
  obtain ⟨h1, h2⟩ := hinj a.1 a.2 b.1 b.2 hab
  exact Prod.ext h1 h2

theorem pixelPoint_injective_witness :
    0 < sourceParams.Width ∧ 0 < sourceParams.Height ∧
    sourceParams.xRange ≠ 0 ∧ sourceParams.yRange ≠ 0 ∧
    pixelPoint sourceParams 0 1 ≠ pixelPoint sourceParams 0 2 :=
  ⟨by decide, by decide, by norm_num [sourceParams], by norm_num [sourceParams],
    fun h => absurd ((pixelPoint_injective sourceParams (by decide) (by decide)
      (by norm_num [sourceParams]) (by norm_num [sourceParams])).1 0 1 0 2 h).2 (by decide)⟩

/-! ## All workers: the grid after the render -/

theorem band_coverage_iff (Height N r : Nat) :
    (∃ i, i < N ∧ inBand Height N i r) ↔ r < N * (Height / N) := by
  constructor
  · rintro ⟨i, hi, -, h2⟩
    exact band_upper_bound (Height / N) N i r hi h2
  · intro h
    obtain ⟨i, hi, h1, h2⟩ := band_index_exists (Height / N) N r h
    exact ⟨i, hi, h1, h2⟩

/-- Every cell of the grid after the workers listed in `order` have run, in that order. -/
theorem computeJulia_foldl_apply (p : Params) (pow : ℚ → ℚ → ℚ) (threads : Nat)
    (order : List Nat) (image : Grid) (r k : Nat) :
    order.foldl (fun img idx => computeJulia p pow idx threads img) image r k =
      if (∃ i, i ∈ order ∧ inBand p.Height threads i r) ∧ k < p.Width ∧
          cellIterations p r k < p.precision then
        cellColour p pow r k
      else image r k := by
  induction order generalizing image with
  | nil => simp
  | cons a rest ih =>
    rw [List.foldl_cons, ih, computeJulia_apply]
    by_cases hq : k < p.Width ∧ cellIterations p r k < p.precision
    · by_cases hrest : ∃ i, i ∈ rest ∧ inBand p.Height threads i r
      · obtain ⟨i, hi, hb⟩ := hrest
        rw [if_pos ⟨⟨i, hi, hb⟩, hq⟩, if_pos ⟨⟨i, List.mem_cons_of_mem a hi, hb⟩, hq⟩]
      · rw [if_neg (fun h => hrest h.1)]
        by_cases ha : inBand p.Height threads a r
        · rw [if_pos ⟨ha, hq⟩, if_pos ⟨⟨a, List.mem_cons_self a rest, ha⟩, hq⟩]
        · rw [if_neg (fun h => ha h.1), if_neg]
          rintro ⟨⟨i, hi, hb⟩, -⟩
          rcases List.mem_cons.1 hi with rfl | hi
          · exact ha hb
          · exact hrest ⟨i, hi, hb⟩
    · rw [if_neg (fun h => hq h.2), if_neg (fun h => hq h.2), if_neg (fun h => hq h.2)]

/-- Every cell of the grid after all workers of `main` have run. -/
theorem runWorkers_apply (p : Params) (pow : ℚ → ℚ → ℚ) (threads : Nat) (image : Grid)
    (r k : Nat) :
    runWorkers p pow threads image r k =
      if r < threads * (p.Height / threads) ∧ k < p.Width ∧
          cellIterations p r k < p.precision then
        cellColour p pow r k
      else image r k := by
  unfold runWorkers
  rw [computeJulia_foldl_apply]
  simp only [List.mem_range, band_coverage_iff]

theorem cellIterations_le (p : Params) (row column : Nat) :
    cellIterations p row column ≤ p.precision :=
  (escapeLoop_spec p.c p.tolerance p.precision p.precision (pixelPoint p row column) 0
    (by omega) (Nat.zero_le _)).2.1

theorem mul_div_eq_of_dvd (N H : Nat) (h : N ∣ H) : N * (H / N) = H :=
  Nat.mul_div_cancel' h

/-- C11: starting from the all-zero grid, for every thread count `N ≥ 1` and every cell
`(row, column)` with `row < N*floor(Height/N)`, the value in the grid after all `N` workers
have run does not depend on `N`: it is 0 if the escape count at
`(minX + column*xRange/Width, maxY - row*yRange/Height)` equals `precision`, and otherwise
`(r<<16)|(g<<8)|b` of `powerColor(count/precision)`. Hence whenever `N1` and `N2` both
divide `Height`, the `N1`-thread and `N2`-thread grids and encoded files are identical. -/
theorem runWorkers_cell_independent_of_threads (p : Params) (pow : ℚ → ℚ → ℚ) (N : Nat)
    (hN : 1 ≤ N) (row column : Nat) (hrow : row < N * (p.Height / N))
    (hcol : column < p.Width) :
    (runWorkers p pow N zeroGrid row column =
      if escapeCount p.c p.tolerance p.precision
          ⟨p.minX + (column : ℚ) * p.xRange / (p.Width : ℚ),
           p.maxY - (row : ℚ) * p.yRange / (p.Height : ℚ)⟩ = p.precision then 0
      else packRGB (powerColor pow
        ((escapeCount p.c p.tolerance p.precision
          ⟨p.minX + (column : ℚ) * p.xRange / (p.Width : ℚ),
           p.maxY - (row : ℚ) * p.yRange / (p.Height : ℚ)⟩ : ℚ) / (p.precision : ℚ)))) ∧
    (∀ N1 N2, 1 ≤ N1 → 1 ≤ N2 → N1 ∣ p.Height → N2 ∣ p.Height →
      runWorkers p pow N1 zeroGrid = runWorkers p pow N2 zeroGrid ∧
      saveImage p.Width p.Height (runWorkers p pow N1 zeroGrid) =
        saveImage p.Width p.Height (runWorkers p pow N2 zeroGrid)) := by
  have hle := cellIterations_le p row column
  constructor
  · rw [runWorkers_apply]
    change _ = if cellIterations p row column = p.precision then 0 else cellColour p pow row column
    by_cases hit : cellIterations p row column = p.precision
    · rw [if_pos hit, if_neg (fun h => by have := h.2.2; omega)]
      rfl
    · rw [if_neg hit, if_pos ⟨hrow, hcol, by omega⟩]
  · intro N1 N2 _ _ h1 h2
    have hgrid : runWorkers p pow N1 zeroGrid = runWorkers p pow N2 zeroGrid := by
      funext r k
      rw [runWorkers_apply, runWorkers_apply, mul_div_eq_of_dvd N1 p.Height h1,
        mul_div_eq_of_dvd N2 p.Height h2]
    exact ⟨hgrid, by rw [hgrid]⟩

theorem runWorkers_cell_independent_of_threads_witness :
    1 ≤ 2 ∧ 1 < 2 * (4 / 2) ∧ 3 < 4 ∧
    runWorkers { sourceParams with Width := 4, Height := 4 } (fun x _ => x) 2 zeroGrid 1 3 =
      runWorkers { sourceParams with Width := 4, Height := 4 } (fun x _ => x) 4 zeroGrid 1 3 :=
  ⟨by decide, by decide, by decide,
    ((runWorkers_cell_independent_of_threads { sourceParams with Width := 4, Height := 4 }
      (fun x _ => x) 2 (by decide) 1 3 (by decide) (by decide)).1).trans
    ((runWorkers_cell_independent_of_threads { sourceParams with Width := 4, Height := 4 }
      (fun x _ => x) 4 (by decide) 1 3 (by decide) (by decide)).1).symm⟩

/-! ## Order of the workers -/


/-- Every cell of the grid after the cell updates listed in `ops` have run, in that
order. -/
theorem computeCell_foldl_apply (p : Params) (pow : ℚ → ℚ → ℚ) (ops : List (Nat × Nat))
    (image : Grid) (r k : Nat) :
    ops.foldl (fun img rc => computeCell p pow rc.1 rc.2 img) image r k =
      if (r, k) ∈ ops ∧ cellIterations p r k < p.precision then cellColour p pow r k
      else image r k := by
  induction ops generalizing image with
  | nil => simp
  | cons a rest ih =>
    rw [List.foldl_cons, ih, computeCell_apply]
    by_cases hq : cellIterations p r k < p.precision
    · by_cases hrest : (r, k) ∈ rest
      · rw [if_pos ⟨hrest, hq⟩, if_pos ⟨List.mem_cons_of_mem a hrest, hq⟩]
      · rw [if_neg (fun h => hrest h.1)]
        by_cases ha : r = a.1 ∧ k = a.2
        · obtain ⟨h1, h2⟩ := ha
          have hmem : (r, k) ∈ a :: rest := by
            rw [h1, h2]; exact List.mem_cons_self a rest
          have hq2 : cellIterations p a.1 a.2 < p.precision := by rw [← h1, ← h2]; exact hq
          rw [if_pos ⟨h1, h2, hq2⟩, if_pos ⟨hmem, hq⟩, h1, h2]
        · rw [if_neg (fun h => ha ⟨h.1, h.2.1⟩), if_neg]
          rintro ⟨hmem, -⟩
          rcases List.mem_cons.1 hmem with h | h
          · exact ha ⟨congrArg Prod.fst h, congrArg Prod.snd h⟩
          · exact hrest h
    · have hq2 : ¬ (r = a.1 ∧ k = a.2 ∧ cellIterations p a.1 a.2 < p.precision) := by
        rintro ⟨h1, h2, h3⟩
        rw [← h1, ← h2] at h3
        exact hq h3
      rw [if_neg (fun h => hq h.2), if_neg hq2, if_neg (fun h => hq h.2)]

/-- C17: for every grid, thread count `N ≥ 1` and worker indices `i, j < N`, running
`computeJulia(i, N)` then `computeJulia(j, N)` yields the same grid as running them in the
other order; consequently the final grid is the same for every order in which the `N`
workers are run, and also for every order in which the cell updates of all the workers
are run one at a time, so the lock around cell writes does not affect the result. -/
theorem computeJulia_workers_commute (p : Params) (pow : ℚ → ℚ → ℚ) (image : Grid)
    (N i j : Nat) (hN : 1 ≤ N) (hi : i < N) (hj : j < N) :
    computeJulia p pow j N (computeJulia p pow i N image) =
      computeJulia p pow i N (computeJulia p pow j N image) ∧
    (∀ order : List Nat, order.Perm (List.range N) →
      order.foldl (fun img idx => computeJulia p pow idx N img) image =
        runWorkers p pow N image) ∧
    (∀ ops : List (Nat × Nat),
      (∀ r k, (r, k) ∈ ops ↔ (∃ idx, idx < N ∧ inBand p.Height N idx r) ∧ k < p.Width) →
      ops.foldl (fun img rc => computeCell p pow rc.1 rc.2 img) image =
        runWorkers p pow N image) := by
  refine ⟨?_, ?_, ?_⟩
  · funext r k
    simp only [computeJulia_apply]
    by_cases h1 : inBand p.Height N j r ∧ k < p.Width ∧ cellIterations p r k < p.precision
    · rw [if_pos h1]
      by_cases h2 : inBand p.Height N i r ∧ k < p.Width ∧ cellIterations p r k < p.precision
      · rw [if_pos h2]
      · rw [if_neg h2, if_pos h1]
    · rw [if_neg h1, if_neg h1]
  · intro order hperm
    funext r k
    unfold runWorkers
    rw [computeJulia_foldl_apply, computeJulia_foldl_apply]
    have hiff : (∃ idx, idx ∈ order ∧ inBand p.Height N idx r) ↔
        (∃ idx, idx ∈ List.range N ∧ inBand p.Height N idx r) := by
      constructor
      · rintro ⟨idx, h1, h2⟩
        exact ⟨idx, hperm.mem_iff.1 h1, h2⟩
      · rintro ⟨idx, h1, h2⟩
        exact ⟨idx, hperm.mem_iff.2 h1, h2⟩
    simp only [hiff]
  · intro ops hops
    funext r k
    rw [computeCell_foldl_apply, runWorkers_apply]
    simp only [hops, band_coverage_iff, and_assoc]

theorem computeJulia_workers_commute_witness :
    1 ≤ 2 ∧ 0 < 2 ∧ 1 < 2 ∧
    computeJulia { sourceParams with Width := 4, Height := 4 } (fun x _ => x) 1 2
        (computeJulia { sourceParams with Width := 4, Height := 4 } (fun x _ => x) 0 2
          zeroGrid) =
      computeJulia { sourceParams with Width := 4, Height := 4 } (fun x _ => x) 0 2
        (computeJulia { sourceParams with Width := 4, Height := 4 } (fun x _ => x) 1 2
          zeroGrid) :=
  ⟨by decide, by decide, by decide,
    (computeJulia_workers_commute { sourceParams with Width := 4, Height := 4 }
      (fun x _ => x) zeroGrid 2 0 1 (by decide) (by decide) (by decide)).1⟩

/-! ## Colour mapping: the largest channel and the packed value -/

theorem truncToInt_mono (a b : ℚ) (ha : 0 ≤ a) (hab : a ≤ b) :
    truncToInt a ≤ truncToInt b := by
  unfold truncToInt
  rw [if_pos ha, if_pos (le_trans ha hab)]
  exact Int.floor_mono hab

/-- For a non-negative hue and saturation in `[0, 1]`, no channel of `hsvToRgb` exceeds
the truncation of `value * 255` and one channel equals it. -/
theorem hsvToRgb_max (hue saturation value : ℚ) (hh : 0 ≤ hue)
    (hs0 : 0 ≤ saturation) (hs1 : saturation ≤ 1) (hv0 : 0 ≤ value) :
    (hsvToRgb hue saturation value).r ≤ truncToInt (value * 255) ∧
    (hsvToRgb hue saturation value).g ≤ truncToInt (value * 255) ∧
    (hsvToRgb hue saturation value).b ≤ truncToInt (value * 255) ∧
    ((hsvToRgb hue saturation value).r = truncToInt (value * 255) ∨
      (hsvToRgb hue saturation value).g = truncToInt (value * 255) ∨
      (hsvToRgb hue saturation value).b = truncToInt (value * 255)) := by
  obtain ⟨f0, f2⟩ := fmod_range (hue / 60) 2 (div_nonneg hh (by norm_num)) (by norm_num)
  have ht0 : 0 ≤ 1 - |fmod (hue / 60) 2 - 1| := by
    have : |fmod (hue / 60) 2 - 1| ≤ 1 := abs_le.2 ⟨by linarith, by linarith⟩
    linarith
  have ht1 : 1 - |fmod (hue / 60) 2 - 1| ≤ 1 := by
    have := abs_nonneg (fmod (hue / 60) 2 - 1)
    linarith
  have hc0 : 0 ≤ value * saturation := mul_nonneg hv0 hs0
  have hc1 : value * saturation ≤ value := by
    have := mul_le_mul_of_nonneg_left hs1 hv0
    linarith
  have hx0 : 0 ≤ value * saturation * (1 - |fmod (hue / 60) 2 - 1|) := mul_nonneg hc0 ht0
  have hx1 : value * saturation * (1 - |fmod (hue / 60) 2 - 1|) ≤ value * saturation := by
    have := mul_le_mul_of_nonneg_left ht1 hc0
    linarith
  have key : ∀ u : ℚ, 0 ≤ u → u ≤ value * saturation →
      truncToInt ((u + (value - value * saturation)) * 255) ≤ truncToInt (value * 255) := by
    intro u hu0 hu1
    apply truncToInt_mono
    · nlinarith
    · nlinarith
  have kx := key _ hx0 hx1
  have kz := key 0 le_rfl hc0
  have kc : truncToInt ((value * saturation + (value - value * saturation)) * 255) =
      truncToInt (value * 255) := by
    congr 1; ring
  unfold hsvToRgb
  simp only []
  split_ifs <;> simp only [kc, le_refl, true_and, and_true, true_or, or_true] <;>
    exact ⟨by assumption, by assumption⟩

theorem packRGB_of_channels (r g b : Nat) (hr : r < 256) (hg : g < 256) (hb : b < 256) :
    packRGB ⟨(r : Int), (g : Int), (b : Int)⟩ = r <<< 16 ||| g <<< 8 ||| b := by
  have e1 : (r : Int) <<< (16 : Int) = ((r <<< 16 : Nat) : Int) := Int.shiftLeft_coe_nat r 16
  have e2 : (g : Int) <<< (8 : Int) = ((g <<< 8 : Nat) : Int) := Int.shiftLeft_coe_nat g 8
  have e3 : Int.lor (Int.lor ((r <<< 16 : Nat) : Int) ((g <<< 8 : Nat) : Int)) (b : Int) =
      ((r <<< 16 ||| g <<< 8 ||| b : Nat) : Int) := rfl
  have hlt : r <<< 16 ||| g <<< 8 ||| b < 2 ^ 64 := by
    rw [packed_eq_sum r g b hg hb]
    omega
  unfold packRGB
  simp only [e1, e2, e3]
  have e4 : ((r <<< 16 ||| g <<< 8 ||| b : Nat) : Int) % (2 ^ 64 : Int) =
      ((r <<< 16 ||| g <<< 8 ||| b : Nat) : Int) := by
    apply Int.emod_eq_of_lt
    · exact Int.natCast_nonneg _
    · exact_mod_cast hlt
  rw [e4, Int.toNat_natCast]

/-- The stored value of a triple with channels in `[0, 255]`. -/
theorem packRGB_in_range (rgb : RGB) (hr : 0 ≤ rgb.r ∧ rgb.r ≤ 255)
    (hg : 0 ≤ rgb.g ∧ rgb.g ≤ 255) (hb : 0 ≤ rgb.b ∧ rgb.b ≤ 255) :
    packRGB rgb = rgb.r.toNat <<< 16 ||| rgb.g.toNat <<< 8 ||| rgb.b.toNat ∧
    packRGB rgb = 2 ^ 8 * (2 ^ 8 * rgb.r.toNat + rgb.g.toNat) + rgb.b.toNat := by
  obtain ⟨r, g, b⟩ := rgb
  simp only at hr hg hb
  obtain ⟨r, rfl⟩ := Int.eq_ofNat_of_zero_le hr.1
  obtain ⟨g, rfl⟩ := Int.eq_ofNat_of_zero_le hg.1
  obtain ⟨b, rfl⟩ := Int.eq_ofNat_of_zero_le hb.1
  have h1 : r < 256 := by omega
  have h2 : g < 256 := by omega
  have h3 : b < 256 := by omega
  simp only [Int.toNat_natCast]
  rw [packRGB_of_channels r g b h1 h2 h3]
  exact ⟨rfl, packed_eq_sum r g b h2 h3⟩

theorem powerColor_facts (pow : ℚ → ℚ → ℚ)
    (hpow : ∀ x, 0 ≤ x → x < 1 → 0 ≤ pow x exponent ∧ pow x exponent ≤ 1)
    (d : ℚ) (hd0 : 0 ≤ d) (hd1 : d < 1) :
    ((0 ≤ (powerColor pow d).r ∧ (powerColor pow d).r ≤ 255) ∧
      (0 ≤ (powerColor pow d).g ∧ (powerColor pow d).g ≤ 255) ∧
      (0 ≤ (powerColor pow d).b ∧ (powerColor pow d).b ≤ 255)) ∧
    ((powerColor pow d).r ≤ 229 ∧ (powerColor pow d).g ≤ 229 ∧ (powerColor pow d).b ≤ 229 ∧
      ((powerColor pow d).r = 229 ∨ (powerColor pow d).g = 229 ∨
        (powerColor pow d).b = 229)) := by
  obtain ⟨hp0, hp1⟩ := hpow d hd0 hd1
  have hs : 0 ≤ constant + d / scale := by
    have : 0 ≤ d / scale := div_nonneg hd0 (by norm_num [scale])
    have : (0 : ℚ) ≤ constant := by norm_num [constant]
    linarith
  obtain ⟨h0, -⟩ := fmod_range (constant + d / scale) 1 hs (by norm_num)
  have hhue : 0 ≤ fmod (constant + d / scale) 1 * 360 := mul_nonneg h0 (by norm_num)
  have h229 : truncToInt (9 / 10 * 255) = 229 := by
    unfold truncToInt
    norm_num
  have hmax := hsvToRgb_max (fmod (constant + d / scale) 1 * 360) (1 - 6 / 10 * pow d exponent)
    (9 / 10) hhue (by linarith) (by linarith) (by norm_num)
  rw [h229] at hmax
  exact ⟨hsvToRgb_range _ _ _ hhue (by linarith) (by linarith) (by norm_num) (by norm_num),
    hmax⟩

/-- C18: for every `d` with `0 ≤ d < 1`, with the configured exponent 0.9, constant 0.5 and
scale 0.1, the largest channel of `powerColor(d)` is exactly 229, so the packed value
`(r<<16)|(g<<8)|b` written for an escaped pixel is never 0; on rows covered by a band of a
render started from the all-zero grid, a cell is 0 if and only if its point did not
escape within `precision` iterations. Of `std::pow` only its range is used: `x ^ 0.9` lies
in `[0, 1]` for `x` in `[0, 1)`. -/
theorem powerColor_max_channel_229 (pow : ℚ → ℚ → ℚ)
    (hpow : ∀ x, 0 ≤ x → x < 1 → 0 ≤ pow x exponent ∧ pow x exponent ≤ 1) :
    (∀ d, 0 ≤ d → d < 1 →
      max (powerColor pow d).r (max (powerColor pow d).g (powerColor pow d).b) = 229 ∧
      packRGB (powerColor pow d) =
        (powerColor pow d).r.toNat <<< 16 ||| (powerColor pow d).g.toNat <<< 8 |||
          (powerColor pow d).b.toNat ∧
      packRGB (powerColor pow d) ≠ 0) ∧
    (∀ (p : Params) (N row column : Nat), 1 ≤ N →
      (∃ idx, idx < N ∧ inBand p.Height N idx row) → column < p.Width →
      (runWorkers p pow N zeroGrid row column = 0 ↔
        cellIterations p row column = p.precision)) := by
  have hcol : ∀ d, 0 ≤ d → d < 1 →
      max (powerColor pow d).r (max (powerColor pow d).g (powerColor pow d).b) = 229 ∧
      packRGB (powerColor pow d) =
        (powerColor pow d).r.toNat <<< 16 ||| (powerColor pow d).g.toNat <<< 8 |||
          (powerColor pow d).b.toNat ∧
      packRGB (powerColor pow d) ≠ 0 := by
    intro d hd0 hd1
    obtain ⟨⟨hr, hg, hb⟩, h1, h2, h3, hmax⟩ := powerColor_facts pow hpow d hd0 hd1
    obtain ⟨hp1, hp2⟩ := packRGB_in_range (powerColor pow d) hr hg hb
    refine ⟨?_, hp1, ?_⟩
    · rcases hmax with h | h | h
      · rw [h] at h1 ⊢; omega
      · rw [h] at h2 ⊢; omega
      · rw [h] at h3 ⊢; omega
    · rw [hp2]
      omega
  refine ⟨hcol, ?_⟩
  intro p N row column _ hband hcolumn
  have hrow : row < N * (p.Height / N) := (band_coverage_iff p.Height N row).1 hband
  have hle := cellIterations_le p row column
  rw [runWorkers_apply]
  by_cases hit : cellIterations p row column < p.precision
  · rw [if_pos ⟨hrow, hcolumn, hit⟩]
    have hprec : (0 : ℚ) < (p.precision : ℚ) := by
      exact_mod_cast Nat.lt_of_le_of_lt (Nat.zero_le _) hit
    have hd0 : (0 : ℚ) ≤ (cellIterations p row column : ℚ) / (p.precision : ℚ) :=
      div_nonneg (by exact_mod_cast Nat.zero_le _) hprec.le
    have hd1 : (cellIterations p row column : ℚ) / (p.precision : ℚ) < 1 := by
      rw [div_lt_one hprec]
      exact_mod_cast hit
    have hne := (hcol _ hd0 hd1).2.2
    constructor
    · intro h
      exact absurd h hne
    · intro h
      omega
  · rw [if_neg (fun h => hit h.2.2)]
    constructor
    · intro _
      omega
    · intro _
      rfl

theorem powerColor_max_channel_229_witness :
    max (powerColor (fun x _ => x) (1 / 2)).r
        (max (powerColor (fun x _ => x) (1 / 2)).g (powerColor (fun x _ => x) (1 / 2)).b) =
      229 ∧
    packRGB (powerColor (fun x _ => x) (1 / 2)) ≠ 0 :=
  have h := (powerColor_max_channel_229 (fun x _ => x)
    (fun x h0 h1 => ⟨h0, le_of_lt h1⟩)).1 (1 / 2) (by norm_num) (by norm_num)
  ⟨h.1, h.2.2⟩

/-! ## The logarithmic colour policy -/

/-- Channel range of `logColor` when the hue it passes on is not negative. -/
theorem logColor_range_of_nonneg_hue (log10 : ℚ → ℚ) (d base constant scale : ℚ)
    (hhue : 0 ≤ constant + scale * (-1 * log10 base / log10 d)) :
    (0 ≤ (logColor log10 d base constant scale).r ∧
      (logColor log10 d base constant scale).r ≤ 255) ∧
    (0 ≤ (logColor log10 d base constant scale).g ∧
      (logColor log10 d base constant scale).g ≤ 255) ∧
    (0 ≤ (logColor log10 d base constant scale).b ∧
      (logColor log10 d base constant scale).b ≤ 255) := by
  unfold logColor
  exact hsvToRgb_range _ _ _ hhue (by norm_num) (by norm_num) (by norm_num) (by norm_num)

/-- C15 fails on the code: `logColor(0.1, 0.01, 60, 60)`, all arguments positive and
`0 < d < 1`, has the hue `60 + 60 * (-log10(0.01) / log10(0.1)) = -60`, and `hsvToRgb`
returns the blue channel `-137`. The two values of `std::log10` used are the exact ones:
`log10(0.1) = -1` and `log10(0.01) = -2`. -/
theorem logColor_blue_channel_negative :
    Real.logb 10 (1 / 10) = -1 ∧ Real.logb 10 (1 / 100) = -2 ∧
    (0 : ℚ) < 1 / 10 ∧ (1 / 10 : ℚ) < 1 ∧ (0 : ℚ) < 1 / 100 ∧ (0 : ℚ) < 60 ∧
    logColor (fun x => if x = 1 / 10 then -1 else -2) (1 / 10) (1 / 100) 60 60 =
      ⟨229, 45, -137⟩ ∧
    ¬ (0 ≤ (logColor (fun x => if x = 1 / 10 then -1 else -2) (1 / 10) (1 / 100) 60 60).b) := by
  have h1 : Real.logb 10 (1 / 10) = -1 := by
    rw [one_div, Real.logb_inv, Real.logb_self_eq_one (by norm_num)]
  have h2 : Real.logb 10 (1 / 100) = -2 := by
    have : (1 / 100 : ℝ) = (10 : ℝ) ^ (-2 : ℝ) := by
      rw [Real.rpow_neg (by norm_num)]; norm_num
    rw [this, Real.logb_rpow (by norm_num) (by norm_num)]
  have hval : logColor (fun x => if x = 1 / 10 then -1 else -2) (1 / 10) (1 / 100) 60 60 =
      ⟨229, 45, -137⟩ := by
    have hc : ⌈(-(1 / 2) : ℚ)⌉ = 0 := by
      rw [Int.ceil_eq_iff]; norm_num
    simp only [logColor, hsvToRgb, fmod, truncToInt]
    norm_num
    rw [hc]
    norm_num
    rw [Int.ceil_eq_iff]
    norm_num
  refine ⟨h1, h2, by norm_num, by norm_num, by norm_num, by norm_num, hval, ?_⟩
  rw [hval]
  decide

/-! ## The driver with no worker -/

/-- C16 fails on the code: with a thread count of zero, `main` run on the parameters of the
source does not reject the configuration: it returns 0, prints no line other than its
three progress lines, and writes an output file. -/
theorem main_zero_threads_not_rejected :
    ¬ rejectsConfiguration (JuliaSetCreator.main sourceParams (fun x _ => x) 0) ∧
    (JuliaSetCreator.main sourceParams (fun x _ => x) 0).exitCode = 0 ∧
    (JuliaSetCreator.main sourceParams (fun x _ => x) 0).outputFile ≠ none := by
  refine ⟨?_, rfl, ?_⟩
  · rintro ⟨h, -⟩
    exact h rfl
  · simp [JuliaSetCreator.main]

/-- C16, amended: when the thread count is zero, the driver reports no error: it launches
no worker, prints only its start line, the thread capacity 0 and the timing line, writes
the encoding of the untouched all-zero grid to the output file and returns success (0). -/
theorem main_zero_threads_writes_zero_grid (p : Params) (pow : ℚ → ℚ → ℚ) :
    (JuliaSetCreator.main p pow 0).exitCode = 0 ∧
    (JuliaSetCreator.main p pow 0).messages =
      [Message.generating, Message.threadCapacity 0, Message.computingTook] ∧
    (JuliaSetCreator.main p pow 0).outputFile = some (saveImage p.Width p.Height zeroGrid) ∧
    (saveImage p.Width p.Height zeroGrid).length = 54 + p.Height * rowStride p.Width ∧
    (∀ row column, runWorkers p pow 0 zeroGrid row column = 0) :=
  ⟨rfl, rfl, rfl, saveImage_length p.Width p.Height zeroGrid, fun _ _ => rfl⟩

/-! ## Bitmap encoder: the size field against the emitted length -/

theorem saveImage_size_field (Width Height : Nat) (image : Grid) :
    ((saveImage Width Height image).drop 2).take 4 = le32 (fileSize Width Height) := by
  unfold saveImage
  rw [bmpHeader_eq]
  rfl

/-- C19: for every `Width ≥ 1` and `Height ≥ 1` with `54 + Height*(3*Width + 3) < 2^31`, the
file-size field `saveImage` stores in header bytes 2-5 equals the number of bytes
`saveImage` emits if and only if `Width` is a multiple of 4; in every case the emitted
length is the field plus `Height * ((4 - (3*Width mod 4)) mod 4)` bytes. -/
theorem saveImage_size_field_vs_length (Width Height : Nat) (image : Grid)
    (hW : 1 ≤ Width) (hH : 1 ≤ Height) (h : 54 + Height * (3 * Width + 3) < 2 ^ 31) :
    leValue (((saveImage Width Height image).drop 2).take 4) = 54 + Width * Height * 3 ∧
    (leValue (((saveImage Width Height image).drop 2).take 4) =
        (saveImage Width Height image).length ↔ 4 ∣ Width) ∧
    (saveImage Width Height image).length =
      leValue (((saveImage Width Height image).drop 2).take 4) +
        Height * ((4 - (3 * Width) % 4) % 4) := by
  have e1 : Width * Height * 3 = Height * (3 * Width) := by ring
  have e2 : Height * (3 * Width + 3) = Height * (3 * Width) + Height * 3 := Nat.mul_add _ _ _
  have hfs : fileSize Width Height = 54 + Width * Height * 3 := by
    unfold fileSize
    exact Nat.mod_eq_of_lt (by omega)
  have hfield : leValue (((saveImage Width Height image).drop 2).take 4) =
      54 + Width * Height * 3 := by
    rw [saveImage_size_field, hfs]
    exact leValue_le32 _ (by omega)
  have hp : padding Width = (4 - (3 * Width) % 4) % 4 := by
    unfold padding; rw [Nat.mul_comm]
  have hlen : (saveImage Width Height image).length =
      54 + Width * Height * 3 + Height * ((4 - (3 * Width) % 4) % 4) := by
    rw [saveImage_length, rowStride, hp, Nat.mul_add, e1]
    omega
  refine ⟨hfield, ?_, ?_⟩
  · rw [hfield, hlen]
    constructor
    · intro heq
      have hz : Height * ((4 - (3 * Width) % 4) % 4) = 0 := by omega
      rcases Nat.mul_eq_zero.1 hz with h0 | h0
      · omega
      · omega
    · intro hdvd
      have hz : (4 - (3 * Width) % 4) % 4 = 0 := by omega
      rw [hz, Nat.mul_zero, Nat.add_zero]
  · rw [hfield, hlen]

theorem saveImage_size_field_vs_length_witness :
    1 ≤ 1 ∧ 1 ≤ 2 ∧ 54 + 2 * (3 * 1 + 3) < 2 ^ 31 ∧
    leValue (((saveImage 1 2 zeroGrid).drop 2).take 4) = 54 + 1 * 2 * 3 ∧
    (saveImage 1 2 zeroGrid).length =
      leValue (((saveImage 1 2 zeroGrid).drop 2).take 4) + 2 * ((4 - (3 * 1) % 4) % 4) :=
  have h := saveImage_size_field_vs_length 1 2 zeroGrid (by decide) (by decide) (by decide)
  ⟨by decide, by decide, by decide, h.1, h.2.2⟩
